import Mathlib

/-!
Verification of the termvisage rendering pipeline and directory scanner.

This file gives a shallow embedding, in Lean, of the parts of the program
relevant to the stated properties:

- `resync_grid_rendering` (tui/render.py) as the ordered trace of operations
  it performs on the synchronization flags and job queues;
- the grid-render dispatcher and result-application steps of
  `manage_grid_renders` (tui/render.py);
- the thumbnail cache bookkeeping `cache_thumbnail` and the deferred-deletion
  loop of `manage_grid_thumbnails` (tui/render.py);
- the per-source body of `generate_grid_thumbnails` and the job-processing
  step of `render_grid_images` (tui/render.py);
- the module-level initialization of the two in-sync flags (tui/render.py);
- `check_dir` (cli.py) over an explicit filesystem tree, and the symlinked
  directory walk with its cycle detection as a reachability relation;
- `sort_key_lexi` and the entry-resumption logic of `scan_dir` (tui/main.py).

Python dictionaries are modelled as insertion-ordered association lists
(assignment to an existing key updates it in place, assignment to a fresh key
appends), which matches CPython dict iteration-order semantics.
-/

/-! ### The resync protocol trace (`resync_grid_rendering`, tui/render.py) -/

/-- The two grid worker pools taking part in the resync protocol. -/
inductive GridPool where
  | renderer
  | thumbnailer
deriving DecidableEq, Repr

/-- One externally visible operation performed by `resync_grid_rendering`:
clearing a pool's in-sync flag, waiting for the pool to set it again,
or pushing the batch delimiter (`None`) into the pool's incoming job queue. -/
inductive ResyncOp where
  | clearFlag (pool : GridPool)
  | waitFlag (pool : GridPool)
  | putDelimiter (pool : GridPool)
deriving DecidableEq, Repr

/-- The straight-line body of `resync_grid_rendering` (tui/render.py, lines
29-67) as the ordered list of operations it performs.  The `thumbnail`
argument is the `THUMBNAIL` flag from `tui/main.py`: the operations on the
thumbnailer pool are guarded by `if THUMBNAIL:` in the source. -/
def resync_grid_rendering (thumbnail : Bool) : List ResyncOp :=
  [ResyncOp.clearFlag GridPool.renderer]
    ++ (if thumbnail then [ResyncOp.clearFlag GridPool.thumbnailer] else [])
    ++ [ResyncOp.waitFlag GridPool.renderer]
    ++ (if thumbnail then [ResyncOp.waitFlag GridPool.thumbnailer] else [])
    ++ [ResyncOp.putDelimiter GridPool.renderer]
    ++ (if thumbnail then [ResyncOp.putDelimiter GridPool.thumbnailer] else [])

/-- Whether every operation satisfying `p` occurs strictly before every
operation satisfying `q` in the trace `t`: whenever an element satisfying `q`
is encountered, no element satisfying `p` may occur at a later position. -/
def opsPrecede (p q : ResyncOp → Bool) : List ResyncOp → Bool
  | [] => true
  | x :: rest =>
      ((!q x) || rest.all (fun y => !p y)) && opsPrecede p q rest

/-! ### Initial state of the in-sync flags (tui/render.py, module level) -/

/-- The pair of module-level synchronization flags
`grid_renderer_in_sync` and `grid_thumbnailer_in_sync`. -/
structure SyncFlags where
  renderer_in_sync : Bool
  thumbnailer_in_sync : Bool
deriving DecidableEq, Repr

/-- `threading.Event()` is created in the cleared state. -/
def eventInitial : Bool := false

/-- Module initialization of tui/render.py: lines 935-936 create both events
(cleared), then lines 962-963 call `.set()` on both. -/
def render_module_init_flags : SyncFlags :=
  let s0 : SyncFlags := ⟨eventInitial, eventInitial⟩
  let s1 : SyncFlags := { s0 with renderer_in_sync := true }
  { s1 with thumbnailer_in_sync := true }

/-- A grid manager thread enters its resync block exactly when it observes its
in-sync flag cleared (`if not in_sync.is_set():`, tui/render.py lines 491 and
668). -/
def manager_enters_resync (in_sync : Bool) : Bool := !in_sync

/-! ### Grid render dispatch and result application (`manage_grid_renders`) -/

/-- A rendered grid cell as stored in `Image._ti_grid_cache`: either an
`ImageCanvas` built from the render output, or the faulty-image placeholder
rendered at the canvas size. -/
inductive GridCell where
  | canvas (lines : List String) (size : Nat × Nat) (rendered_size : Option (Nat × Nat))
  | faulty (size : Nat × Nat)
deriving DecidableEq, Repr

/-- A result delivered on `grid_render_out` by `render_grid_images`:
`(batch_no, source, thumbnail, render, rendered_size)`. -/
structure GridRenderResult where
  batch_no : Nat
  source : String
  thumbnail : Option String
  render : Option String
  rendered_size : Option (Nat × Nat)
deriving DecidableEq, Repr

/-- The state of the `manage_grid_renders` loop that the dispatch and
result-application steps read and write. -/
structure GridRenderState where
  grid_batch_no : Nat
  in_sync : Bool
  quitting : Bool
  canvas_size : Nat × Nat
  grid_cache : List (String × GridCell)
deriving DecidableEq, Repr

/-- Python dict assignment `m[k] = v`: update in place when the key is
present, append otherwise. -/
def dictSet {α : Type} (m : List (String × α)) (k : String) (v : α) :
    List (String × α) :=
  match m with
  | [] => [(k, v)]
  | (k₂, v₂) :: rest =>
      if k₂ = k then (k, v) :: rest else (k₂, v₂) :: dictSet rest k v

/-- `os.path.basename` for slash-separated paths. -/
def basename (p : String) : String := (p.splitOn "/").getLastD ""

/-- The dispatch step of `manage_grid_renders` (tui/render.py lines 516-518):
a job taken from `grid_render_queue` is forwarded to the workers as
`(grid_batch_no, source, thumbnail, canvas_size)`. -/
def dispatch_grid_render (st : GridRenderState) (source : String)
    (thumbnail : Option String) : Nat × String × Option String × (Nat × Nat) :=
  (st.grid_batch_no, source, thumbnail, st.canvas_size)

/-- The result-application step of `manage_grid_renders` (tui/render.py lines
524-538): a result is applied to `grid_cache` only when its batch number
equals the current `grid_batch_no`, the in-sync flag is set, and the TUI is
not quitting; otherwise the cache is left unchanged. -/
def receive_grid_render_result (st : GridRenderState) (r : GridRenderResult) :
    GridRenderState :=
  if r.batch_no = st.grid_batch_no ∧ st.in_sync ∧ ¬st.quitting then
    { st with
        grid_cache :=
          dictSet st.grid_cache (basename r.source)
            (match r.render with
             | some render =>
                 GridCell.canvas (render.splitOn "\n") st.canvas_size r.rendered_size
             | none => GridCell.faulty st.canvas_size) }
  else st

/-! ### Theorems for claims C1, C9 and C2 -/

/-- C1: in every invocation of `resync_grid_rendering`, the GridRenderer
in-sync flag is cleared first (the very first operation), the GridThumbnailer
flag is cleared only after it (when thumbnailing is enabled), every wait for
a confirmation occurs after all clears and before any delimiter push, and
exactly one delimiter is pushed into each active pool's incoming job queue,
none of them before both confirmations. -/
theorem c1_resync_order : ∀ thumbnail : Bool,
    (resync_grid_rendering thumbnail).head? =
        some (ResyncOp.clearFlag GridPool.renderer)
      ∧ opsPrecede (· = ResyncOp.clearFlag GridPool.renderer)
          (· = ResyncOp.clearFlag GridPool.thumbnailer)
          (resync_grid_rendering thumbnail) = true
      ∧ opsPrecede (fun op => op matches ResyncOp.clearFlag _)
          (fun op => op matches ResyncOp.waitFlag _)
          (resync_grid_rendering thumbnail) = true
      ∧ opsPrecede (fun op => op matches ResyncOp.waitFlag _)
          (fun op => op matches ResyncOp.putDelimiter _)
          (resync_grid_rendering thumbnail) = true
      ∧ (resync_grid_rendering thumbnail).count
          (ResyncOp.putDelimiter GridPool.renderer) = 1
      ∧ (resync_grid_rendering thumbnail).count
          (ResyncOp.putDelimiter GridPool.thumbnailer) =
          (if thumbnail then 1 else 0) := by
  intro thumbnail
  cases thumbnail <;> decide

/-- C9: at module initialization both in-sync flags end up set (the events are
created cleared and then explicitly `.set()`), hence neither grid manager
thread observes an initial "out of sync" state and enters a resync before the
UI thread first clears a flag. -/
theorem c9_initial_flags_set :
    render_module_init_flags.renderer_in_sync = true
      ∧ render_module_init_flags.thumbnailer_in_sync = true
      ∧ manager_enters_resync render_module_init_flags.renderer_in_sync = false
      ∧ manager_enters_resync render_module_init_flags.thumbnailer_in_sync = false := by
  decide

/-- C2: every job dispatched to a grid render worker is tagged with the
pipeline's current batch number, and a result whose batch number differs from
the current batch number at reception time is discarded: the whole state, and
in particular the grid cell cache, is left unchanged. -/
theorem c2_stale_results_discarded :
    (∀ (st : GridRenderState) (source : String) (thumbnail : Option String),
        (dispatch_grid_render st source thumbnail).1 = st.grid_batch_no)
      ∧ ∀ (st : GridRenderState) (r : GridRenderResult),
          r.batch_no ≠ st.grid_batch_no → receive_grid_render_result st r = st := by
  refine ⟨fun st source thumbnail => rfl, fun st r hne => ?_⟩
  unfold receive_grid_render_result
  rw [if_neg]
  intro h
  exact hne h.1

/-- Witness for C2 at a concrete state and result with differing batch
numbers: the state is returned unchanged. -/
theorem c2_stale_results_discarded_witness :
    (3 : Nat) ≠ (4 : Nat)
      ∧ receive_grid_render_result
          ⟨4, true, false, (10, 5), []⟩
          ⟨3, "/a/img.png", none, some "xyz", some (8, 4)⟩ =
        ⟨4, true, false, (10, 5), []⟩ := by
  refine ⟨by decide, ?_⟩
  exact c2_stale_results_discarded.2
    ⟨4, true, false, (10, 5), []⟩
    ⟨3, "/a/img.png", none, some "xyz", some (8, 4)⟩
    (by decide)

/-! ### Thumbnail generation failure semantics (`generate_grid_thumbnails`)
and the grid render worker's fallback (`render_grid_images`) -/

/-- The outcomes of the fallible operations performed for one source by the
body of the `while` loop of `generate_grid_thumbnails` (tui/render.py lines
120-196).  `decode_ok` covers `Image.open`/`convert`/`thumbnail`,
`mkstemp_ok` covers thumbnail-file creation, `dedup_found` is the
pixel-identical existing thumbnail found by the deduplication scan (if any),
`copy_ok` whether `copyfile` from it succeeded, and `save_ok` whether
`img.save` succeeded.  `thumbnail_path` is the path returned by `mkstemp`. -/
structure ThumbGenOutcome where
  decode_ok : Bool
  mkstemp_ok : Bool
  thumbnail_path : String
  dedup_found : Option String
  copy_ok : Bool
  save_ok : Bool
deriving DecidableEq, Repr

/-- The result tuple `(source, thumbnail, deduplicated)` pushed onto the
output queue by `generate_grid_thumbnails` for one source, as determined by
the outcomes of its fallible operations.  Every failure path pushes
`(source, None, None)` and continues with the next job. -/
def generate_grid_thumbnails_step (o : ThumbGenOutcome) (source : String) :
    String × Option String × Option String :=
  if ¬o.decode_ok then (source, none, none)
  else if ¬o.mkstemp_ok then (source, none, none)
  else
    match o.dedup_found with
    | some other =>
        if o.copy_ok then (source, some o.thumbnail_path, some other)
        else if o.save_ok then (source, some o.thumbnail_path, none)
        else (source, none, none)
    | none =>
        if o.save_ok then (source, some o.thumbnail_path, none)
        else (source, none, none)

/-- The condition under which the processing of one source fails to produce a
thumbnail: decoding fails, thumbnail-file creation fails, or neither
deduplication (with a successful copy) nor saving succeeds. -/
def thumbGenFails (o : ThumbGenOutcome) : Prop :=
  o.decode_ok = false
    ∨ o.mkstemp_ok = false
    ∨ ((o.dedup_found = none ∨ o.copy_ok = false) ∧ o.save_ok = false)

instance (o : ThumbGenOutcome) : Decidable (thumbGenFails o) := by
  unfold thumbGenFails; infer_instance

/-- The file opened by the grid render worker for a job
`(batch_no, source, thumbnail, canvas_size)`: `ImageClass.from_file(thumbnail
or source)` (tui/render.py line 877), i.e. the thumbnail when present and the
full-size source otherwise. -/
def render_grid_images_opened_file (source : String) (thumbnail : Option String) :
    String :=
  thumbnail.getD source

/-- C8: for every source whose thumbnail generation fails at any stage, the
worker emits a result for that source (it does not crash or stall) whose
thumbnail is null — and the emitted thumbnail is null exactly on those failure
paths; downstream, the grid render worker opens the full-size source whenever
the job's thumbnail is null, and the thumbnail file when it is present. -/
theorem c8_null_thumbnail_fallback :
    (∀ (o : ThumbGenOutcome) (source : String),
        (generate_grid_thumbnails_step o source).1 = source
          ∧ ((generate_grid_thumbnails_step o source).2.1 = none ↔ thumbGenFails o))
      ∧ (∀ source : String, render_grid_images_opened_file source none = source)
      ∧ ∀ (source thumbnail : String),
          render_grid_images_opened_file source (some thumbnail) = thumbnail := by
  refine ⟨fun o source => ⟨?_, ?_⟩, fun source => rfl, fun source thumbnail => rfl⟩
  · unfold generate_grid_thumbnails_step
    rcases o with ⟨d, m, p, f, c, s⟩
    cases d <;> cases m <;> cases c <;> cases s <;> cases f <;> rfl
  · unfold generate_grid_thumbnails_step thumbGenFails
    rcases o with ⟨d, m, p, f, c, s⟩
    cases d <;> cases m <;> cases c <;> cases s <;> cases f <;> simp

/-! ### The entry ordering key (`sort_key_lexi`, tui/main.py lines 620-634) -/

/-- Python `str.casefold` restricted to the ASCII range: an upper-case ASCII
letter is mapped to its lower-case counterpart, every other character is left
unchanged. -/
def casefold (c : Char) : Char :=
  if 'A' ≤ c ∧ c ≤ 'Z' then Char.ofNat (c.toNat + 32) else c

/-- Python string comparison `s < t`: strict lexicographic comparison of the
sequences of code points. -/
def lexLt : List Char → List Char → Bool
  | [], [] => false
  | [], _ :: _ => true
  | _ :: _, [] => false
  | a :: as, b :: bs => if a < b then true else if b < a then false else lexLt as bs

/-- The ordering key built by `sort_key_lexi`:
`chr(entry.is_file()) + name.lstrip(".").casefold() + "\0" * (not
name.startswith("."))`.  Names are modelled as their lists of code points. -/
def sort_key_lexi (is_file : Bool) (name : List Char) : List Char :=
  (if is_file then '\x01' else '\x00')
    :: ((name.dropWhile (· = '.')).map casefold
      ++ (if name.head? = some '.' then [] else ['\x00']))

/-- The stem of an entry name: the name with its leading dots stripped,
casefolded.  Two entries share a stem exactly when they are the hidden and
non-hidden variants of the same name (up to case). -/
def entryStem (name : List Char) : List Char :=
  (name.dropWhile (· = '.')).map casefold

/-- The NUL character is a least element of `Char`. -/
theorem nulChar_le (c : Char) : '\x00' ≤ c := by
  by_contra h
  have h2 : c < '\x00' := lt_of_not_ge h
  have h3 : c.val < ('\x00' : Char).val := h2
  rw [UInt32.lt_def, BitVec.lt_def] at h3
  simp at h3

/-- Every character other than NUL is strictly greater than NUL. -/
theorem nulChar_lt {c : Char} (h : c ≠ '\x00') : '\x00' < c :=
  lt_of_le_of_ne (nulChar_le c) (Ne.symm h)

/-- Characters that are mutually non-less are equal. -/
theorem char_eq_of_not_lt {a b : Char} (h1 : ¬a < b) (h2 : ¬b < a) : a = b :=
  le_antisymm (le_of_not_lt h2) (le_of_not_lt h1)

/-- An upper-case ASCII character has code point at most 90. -/
theorem charToNat_le_of_le {c : Char} (h : c ≤ 'Z') : c.toNat ≤ 90 := by
  have h2 : c.val ≤ ('Z' : Char).val := h
  rw [UInt32.le_def, BitVec.le_def] at h2
  simpa [Char.toNat, UInt32.toNat] using h2

/-- An upper-case ASCII character has code point at least 65. -/
theorem charToNat_ge_of_ge {c : Char} (h : 'A' ≤ c) : 65 ≤ c.toNat := by
  have h2 : ('A' : Char).val ≤ c.val := h
  rw [UInt32.le_def, BitVec.le_def] at h2
  simpa [Char.toNat, UInt32.toNat] using h2

/-- `Char.ofNat` of a valid code point has that code point. -/
theorem charToNat_ofNat_valid {m : Nat} (h : m.isValidChar) :
    (Char.ofNat m).toNat = m := by
  rw [Char.ofNat, dif_pos h]
  simp [Char.toNat, UInt32.toNat, Char.ofNatAux, BitVec.toNat_ofNatLt]

/-- `casefold` maps non-NUL characters to non-NUL characters. -/
theorem casefold_ne_nul {c : Char} (h : c ≠ '\x00') : casefold c ≠ '\x00' := by
  unfold casefold
  split
  · rename_i hc
    intro heq
    have h1 := charToNat_ge_of_ge hc.1
    have h2 := charToNat_le_of_le hc.2
    have hv : (Char.ofNat (c.toNat + 32)).toNat = c.toNat + 32 :=
      charToNat_ofNat_valid (Or.inl (by omega))
    rw [heq] at hv
    simp [Char.toNat] at hv
  · exact h

/-- Membership in a `dropWhile` implies membership in the original list. -/
theorem mem_of_mem_dropWhile {p : Char → Bool} {l : List Char} {c : Char}
    (hc : c ∈ l.dropWhile p) : c ∈ l := by
  induction l with
  | nil => simp at hc
  | cons a as ih =>
    by_cases hp : p a
    · rw [List.dropWhile_cons, if_pos hp] at hc
      exact List.mem_cons_of_mem a (ih hc)
    · rw [List.dropWhile_cons, if_neg hp] at hc
      exact hc

/-- Every character of a name's stem is non-NUL provided the name itself
contains no NUL characters. -/
theorem entryStem_ne_nul {name : List Char} (h : ∀ c ∈ name, c ≠ '\x00') :
    ∀ c ∈ entryStem name, c ≠ '\x00' := by
  intro c hc
  unfold entryStem at hc
  obtain ⟨d, hd, hdc⟩ := List.mem_map.mp hc
  exact hdc ▸ casefold_ne_nul (h d (mem_of_mem_dropWhile hd))

/-- Appending hidden-marker suffixes (the empty string or a single NUL) to two
distinct NUL-free strings does not change how they compare. -/
theorem lexLt_append_nul (sa : List Char) : ∀ (sb ua ub : List Char),
    sa ≠ sb → (∀ c ∈ sa, c ≠ '\x00') → (∀ c ∈ sb, c ≠ '\x00') →
    (ua = [] ∨ ua = ['\x00']) → (ub = [] ∨ ub = ['\x00']) →
    lexLt (sa ++ ua) (sb ++ ub) = lexLt sa sb := by
  induction sa with
  | nil =>
    intro sb ua ub hne ha hb hua hub
    cases sb with
    | nil => exact absurd rfl hne
    | cons b bs =>
      rcases hua with h | h <;> subst h
      · simp [lexLt]
      · have hb0 : b ≠ '\x00' := hb b (by simp)
        simp [lexLt, nulChar_lt hb0]
  | cons a as ih =>
    intro sb ua ub hne ha hb hua hub
    cases sb with
    | nil =>
      rcases hub with h | h <;> subst h
      · simp [lexLt]
      · have ha0 : a ≠ '\x00' := ha a (by simp)
        have h1 : ¬a < '\x00' := not_lt_of_ge (le_of_lt (nulChar_lt ha0))
        simp [lexLt, h1, nulChar_lt ha0]
    | cons b bs =>
      by_cases hab : a < b
      · simp [lexLt, hab]
      · by_cases hba : b < a
        · simp [lexLt, hab, hba]
        · have heq : a = b := char_eq_of_not_lt hab hba
          subst heq
          have hne2 : as ≠ bs := fun h => hne (by rw [h])
          simp only [List.cons_append, lexLt, if_neg hab, if_neg hba]
          exact ih bs ua ub hne2 (fun c hc => ha c (List.mem_cons_of_mem _ hc))
            (fun c hc => hb c (List.mem_cons_of_mem _ hc)) hua hub

/-- Every string strictly precedes itself followed by a NUL character. -/
theorem lexLt_self_append_nul (l : List Char) : lexLt l (l ++ ['\x00']) = true := by
  induction l with
  | nil => simp [lexLt]
  | cons a as ih => simp [lexLt, ih]

/-- No string lies strictly between a string and that string followed by a
NUL character. -/
theorem lexLt_not_between (l : List Char) : ∀ w : List Char,
    ¬(lexLt l w = true ∧ lexLt w (l ++ ['\x00']) = true) := by
  induction l with
  | nil =>
    intro w hw
    obtain ⟨h1, h2⟩ := hw
    cases w with
    | nil => simp [lexLt] at h1
    | cons c cs =>
      have hcle : ¬c < '\x00' := not_lt_of_ge (nulChar_le c)
      by_cases hc : '\x00' < c
      · simp [lexLt, hcle, hc] at h2
      · cases cs with
        | nil => simp [lexLt, hcle, hc] at h2
        | cons d ds => simp [lexLt, hcle, hc] at h2
  | cons a as ih =>
    intro w hw
    obtain ⟨h1, h2⟩ := hw
    cases w with
    | nil => simp [lexLt] at h1
    | cons c cs =>
      by_cases hac : a < c
      · have hca : ¬c < a := lt_asymm hac
        simp [lexLt, hca, hac] at h2
      · by_cases hca : c < a
        · simp [lexLt, hac, hca] at h1
        · have heq : a = c := char_eq_of_not_lt hac hca
          subst heq
          simp only [lexLt, if_neg hac, if_neg hca, List.cons_append] at h1 h2
          exact ih cs ⟨h1, h2⟩

/-- Comparing two keys that share their first character compares the tails. -/
theorem lexLt_cons_same (g : Char) (x y : List Char) :
    lexLt (g :: x) (g :: y) = lexLt x y := by
  simp [lexLt]

/-- The key is the group character followed by the stem and the
hidden-marker suffix. -/
theorem sort_key_lexi_eq (k : Bool) (name : List Char) :
    sort_key_lexi k name =
      (if k then '\x01' else '\x00')
        :: (entryStem name ++ (if name.head? = some '.' then [] else ['\x00'])) :=
  rfl

/-- C7: the ordering key produced by `sort_key_lexi` groups directories
strictly before files; within one group the order of two entries with
distinct stems is exactly the lexicographic order of their case-folded,
dot-stripped stems (for NUL-free names); and a hidden entry is ordered
immediately before the non-hidden entry of the same stem: its key strictly
precedes the non-hidden key and no key at all lies strictly between them. -/
theorem c7_sort_key_lexi_ordering :
    (∀ dname fname : List Char,
        lexLt (sort_key_lexi false dname) (sort_key_lexi true fname) = true)
      ∧ (∀ (k : Bool) (a b : List Char),
          (∀ c ∈ a, c ≠ '\x00') → (∀ c ∈ b, c ≠ '\x00') →
          entryStem a ≠ entryStem b →
          lexLt (sort_key_lexi k a) (sort_key_lexi k b) =
            lexLt (entryStem a) (entryStem b))
      ∧ ∀ (k : Bool) (hname nname : List Char),
          hname.head? = some '.' → nname.head? ≠ some '.' →
          entryStem hname = entryStem nname →
          lexLt (sort_key_lexi k hname) (sort_key_lexi k nname) = true
            ∧ ∀ w : List Char,
                ¬(lexLt (sort_key_lexi k hname) (sort_key_lexi k w) = true
                  ∧ lexLt (sort_key_lexi k w) (sort_key_lexi k nname) = true) := by
  have hg : ('\x00' : Char) < '\x01' := by decide
  refine ⟨?_, ?_, ?_⟩
  · intro dname fname
    rw [sort_key_lexi_eq, sort_key_lexi_eq]
    simp [lexLt, hg]
  · intro k a b ha hb hne
    rw [sort_key_lexi_eq, sort_key_lexi_eq, lexLt_cons_same]
    refine lexLt_append_nul (entryStem a) (entryStem b) _ _ hne
      (entryStem_ne_nul ha) (entryStem_ne_nul hb) ?_ ?_
    · by_cases h : a.head? = some '.'
      · exact Or.inl (if_pos h)
      · exact Or.inr (if_neg h)
    · by_cases h : b.head? = some '.'
      · exact Or.inl (if_pos h)
      · exact Or.inr (if_neg h)
  · intro k hname nname hh hn hstem
    have hkeyh : sort_key_lexi k hname =
        (if k then '\x01' else '\x00') :: entryStem hname := by
      rw [sort_key_lexi_eq, if_pos hh, List.append_nil]
    have hkeyn : sort_key_lexi k nname = sort_key_lexi k hname ++ ['\x00'] := by
      rw [sort_key_lexi_eq, if_neg hn, hkeyh, ← hstem, List.cons_append]
    refine ⟨?_, ?_⟩
    · rw [hkeyn]
      exact lexLt_self_append_nul (sort_key_lexi k hname)
    · intro w
      rw [hkeyn]
      exact lexLt_not_between (sort_key_lexi k hname) (sort_key_lexi k w)

/-- Witness for C7: the hidden name `.F` and the non-hidden name `f` share
the stem `f`, and the key of the former strictly precedes the key of the
latter. -/
theorem c7_sort_key_lexi_ordering_witness :
    (['.', 'F'] : List Char).head? = some '.'
      ∧ (['f'] : List Char).head? ≠ some '.'
      ∧ entryStem ['.', 'F'] = entryStem ['f']
      ∧ lexLt (sort_key_lexi false ['.', 'F']) (sort_key_lexi false ['f']) = true := by
  refine ⟨rfl, by decide, by decide, ?_⟩
  exact (c7_sort_key_lexi_ordering.2.2 false ['.', 'F'] ['f'] rfl (by decide)
    (by decide)).1

/-! ### Entry streaming with resumption (`scan_dir`, tui/main.py lines
414-443) -/

/-- A directory entry as seen by `scan_dir`: its name and whether it is a
file (as opposed to a directory). -/
structure ScanEntry where
  name : List Char
  is_file : Bool
deriving DecidableEq, Repr

/-- The sort key of an entry, as used by `scan_dir`'s default sort. -/
def scanEntryKey (e : ScanEntry) : List Char :=
  sort_key_lexi e.is_file e.name

/-- Stable insertion of an entry into a list sorted by `scanEntryKey`. -/
def insertSorted (e : ScanEntry) : List ScanEntry → List ScanEntry
  | [] => [e]
  | x :: xs =>
      if lexLt (scanEntryKey e) (scanEntryKey x) then e :: x :: xs
      else x :: insertSorted e xs

/-- `sorted(os.scandir(dir), key=sort_key_lexi)`: a stable sort of the
directory entries by their ordering key. -/
def sortEntries : List ScanEntry → List ScanEntry
  | [] => []
  | e :: rest => insertSorted e (sortEntries rest)

/-- The `for entry in entries: if entry.name == last_entry: break` loop of
`scan_dir`: consume entries up to and including the first one named
`last_entry`, returning the remaining suffix, or `none` when the name never
occurs (the iterator is exhausted without a `break`). -/
def resumeAfter (last_entry : List Char) : List ScanEntry → Option (List ScanEntry)
  | [] => none
  | e :: rest =>
      if e.name = last_entry then some rest else resumeAfter last_entry rest

/-- The sequence of entries scanned by `scan_dir(dir, contents, last_entry)`:
all entries sorted by `sort_key_lexi`; when `last_entry` is given, entries up
to and including the first entry of that name are skipped, and when no entry
has that name the scan restarts from the beginning (`else` clause of the
`for` loop, tui/main.py lines 416-421). -/
def scan_dir (entries : List ScanEntry) (last_entry : Option (List Char)) :
    List ScanEntry :=
  let es := sortEntries entries
  match last_entry with
  | none => es
  | some l => (resumeAfter l es).getD es

/-- Membership after a sorted insertion comes from the inserted element or
the original list. -/
theorem mem_insertSorted {x e : ScanEntry} {xs : List ScanEntry}
    (hx : x ∈ insertSorted e xs) : x = e ∨ x ∈ xs := by
  induction xs with
  | nil =>
    simp [insertSorted] at hx
    exact Or.inl hx
  | cons y ys ih =>
    unfold insertSorted at hx
    split at hx
    · rcases List.mem_cons.mp hx with h | h
      · exact Or.inl h
      · exact Or.inr h
    · rcases List.mem_cons.mp hx with h | h
      · exact Or.inr (h ▸ List.mem_cons_self y ys)
      · rcases ih h with h2 | h2
        · exact Or.inl h2
        · exact Or.inr (List.mem_cons_of_mem y h2)

/-- The sorted entry list contains only original entries. -/
theorem mem_sortEntries {x : ScanEntry} {es : List ScanEntry}
    (hx : x ∈ sortEntries es) : x ∈ es := by
  induction es with
  | nil => simp [sortEntries] at hx
  | cons e rest ih =>
    unfold sortEntries at hx
    rcases mem_insertSorted hx with h | h
    · exact h ▸ List.mem_cons_self e rest
    · exact List.mem_cons_of_mem e (ih h)

/-- When no entry bears the resume name, the resumption loop exhausts the
iterator without a `break`. -/
theorem resumeAfter_eq_none {l : List Char} {es : List ScanEntry}
    (h : ∀ e ∈ es, e.name ≠ l) : resumeAfter l es = none := by
  induction es with
  | nil => rfl
  | cons e rest ih =>
    unfold resumeAfter
    rw [if_neg (h e (List.mem_cons_self e rest))]
    exact ih fun x hx => h x (List.mem_cons_of_mem e hx)

/-- C10: for every directory listing and every resume name that does not
occur among the directory's entry names, `scan_dir` yields the complete
sorted listing from the beginning, identical to a call without a resume
name. -/
theorem c10_scan_dir_resume_not_found (entries : List ScanEntry)
    (last_entry : List Char) (h : ∀ e ∈ entries, e.name ≠ last_entry) :
    scan_dir entries (some last_entry) = scan_dir entries none := by
  have h2 : resumeAfter last_entry (sortEntries entries) = none :=
    resumeAfter_eq_none fun e he => h e (mem_sortEntries he)
  unfold scan_dir
  simp [h2]

/-- Witness for C10: resuming from the absent name `b` in a one-entry
directory restarts from the beginning. -/
theorem c10_scan_dir_resume_not_found_witness :
    (∀ e ∈ [ScanEntry.mk ['a'] true], e.name ≠ ['b'])
      ∧ scan_dir [ScanEntry.mk ['a'] true] (some ['b']) =
          scan_dir [ScanEntry.mk ['a'] true] none := by
  refine ⟨by decide, ?_⟩
  exact c10_scan_dir_resume_not_found [ScanEntry.mk ['a'] true] ['b'] (by decide)

/-! ### The thumbnail cache (`cache_thumbnail` and the deferred-deletion loop
of `manage_grid_thumbnails`, tui/render.py lines 557-726) -/

/-- Python dict lookup `m.get(k)`. -/
def dictGet {α : Type} : List (String × α) → String → Option α
  | [], _ => none
  | (k₂, v) :: rest, k => if k₂ = k then some v else dictGet rest k

/-- Python dict membership `k in m`. -/
def dictContainsKey {α : Type} : List (String × α) → String → Bool
  | [], _ => false
  | (k₂, _) :: rest, k => if k₂ = k then true else dictContainsKey rest k

/-- Python dict deletion `del m[k]` (also `m.pop(k)` for the mapping part). -/
def dictErase {α : Type} : List (String × α) → String → List (String × α)
  | [], _ => []
  | (k₂, v) :: rest, k => if k₂ = k then rest else (k₂, v) :: dictErase rest k

/-- Python set insertion `s.add(x)`. -/
def setAdd (s : List String) (x : String) : List String :=
  if x ∈ s then s else s ++ [x]

/-- `min(thumbnail_sources, key=lambda t: len(thumbnail_sources[t]))`:
scan the keys in insertion order keeping the first key whose value has
strictly minimal length. -/
def minSourcesKeyAux (bk : String) (bl : Nat) :
    List (String × List String) → String
  | [] => bk
  | (k, v) :: rest =>
      if v.length < bl then minSourcesKeyAux k v.length rest
      else minSourcesKeyAux bk bl rest

/-- The key of `thumbnail_sources` with the fewest linked sources, ties
resolved in favour of the oldest (first-inserted) key; `none` for an empty
mapping. -/
def minSourcesKey : List (String × List String) → Option String
  | [] => none
  | (k, v) :: rest => some (minSourcesKeyAux k v.length rest)

/-- The module-level bookkeeping of the thumbnail subsystem
(tui/render.py lines 938-944) together with the `thumbnails_to_be_deleted`
set local to `manage_grid_thumbnails` (line 652). -/
structure ThumbState where
  thumbnail_cache : List (String × String)
  extra_thumbnail_cache : List (String × String)
  thumbnail_sources : List (String × List String)
  thumbnails_being_rendered : List (String × List String)
  thumbnails_to_be_deleted : List String
deriving DecidableEq, Repr

/-- The eviction step at the head of `cache_thumbnail` (tui/render.py lines
567-595), entered only for a non-deduplicated thumbnail when the cache has
exactly `THUMBNAIL_CACHE_SIZE > 0` thumbnails.  Returns the new state and the
list of thumbnail files passed to `delete_thumbnail`.  An in-flight evictee
(a key of `thumbnails_being_rendered`) has its pipeline sources copied into
the extra cache and is queued for deferred deletion instead of being
deleted. -/
def evict_for_cache_size (THUMBNAIL_CACHE_SIZE : Nat) (st : ThumbState)
    (deduplicated : Option String) : ThumbState × List String :=
  if deduplicated = none ∧ 0 < THUMBNAIL_CACHE_SIZE
      ∧ THUMBNAIL_CACHE_SIZE = st.thumbnail_sources.length then
    match minSourcesKey st.thumbnail_sources with
    | some other =>
        let otherSources := (dictGet st.thumbnail_sources other).getD []
        let p :=
          if dictContainsKey st.thumbnails_being_rendered other then
            ({ st with
                extra_thumbnail_cache :=
                  ((dictGet st.thumbnails_being_rendered other).getD []).foldl
                    (fun m s => dictSet m s other) st.extra_thumbnail_cache,
                thumbnail_cache :=
                  otherSources.foldl (fun m s => dictErase m s) st.thumbnail_cache,
                thumbnails_to_be_deleted :=
                  setAdd st.thumbnails_to_be_deleted other },
              ([] : List String))
          else
            ({ st with
                thumbnail_cache :=
                  otherSources.foldl (fun m s => dictErase m s) st.thumbnail_cache },
              [other])
        ({ p.1 with thumbnail_sources := dictErase p.1.thumbnail_sources other },
          p.2)
    | none => (st, [])
  else (st, [])

/-- The deduplication tail of `cache_thumbnail` (tui/render.py lines
599-626), run after `thumbnail_cache[source] = thumbnail`: when the
deduplicated thumbnail has not been evicted (or the cache is unbounded), its
linked sources are re-linked to the new thumbnail and the deduplicated file
is deleted — unless it is in-flight, in which case its deletion is deferred.
Otherwise the new thumbnail is simply linked to its single source. -/
def dedup_step (THUMBNAIL_CACHE_SIZE : Nat) (st : ThumbState)
    (source thumbnail : String) (deduplicated : Option String) :
    ThumbState × List String :=
  match deduplicated with
  | some d =>
      if THUMBNAIL_CACHE_SIZE = 0 ∨ dictContainsKey st.thumbnail_sources d then
        let dedupSources := (dictGet st.thumbnail_sources d).getD []
        let st₂ := { st with
            thumbnail_sources :=
              dictSet (dictErase st.thumbnail_sources d) thumbnail
                (dedupSources ++ [source]),
            thumbnail_cache :=
              dedupSources.foldl (fun m s => dictSet m s thumbnail)
                st.thumbnail_cache }
        if dictContainsKey st₂.thumbnails_being_rendered d then
          ({ st₂ with
              extra_thumbnail_cache :=
                ((dictGet st₂.thumbnails_being_rendered d).getD []).foldl
                  (fun m s => dictSet m s d) st₂.extra_thumbnail_cache,
              thumbnails_to_be_deleted :=
                setAdd st₂.thumbnails_to_be_deleted d },
            ([] : List String))
        else (st₂, [d])
      else
        ({ st with
            thumbnail_sources := dictSet st.thumbnail_sources thumbnail [source] },
          [])
  | none =>
      ({ st with
          thumbnail_sources := dictSet st.thumbnail_sources thumbnail [source] },
        [])

/-- `cache_thumbnail(source, thumbnail, deduplicated)` (tui/render.py lines
566-626): evict if the bounded cache is full, link `source` to `thumbnail` in
the main cache, then handle deduplication.  Returns the new state and the
list of thumbnail files passed to `delete_thumbnail`. -/
def cache_thumbnail (THUMBNAIL_CACHE_SIZE : Nat) (st : ThumbState)
    (source thumbnail : String) (deduplicated : Option String) :
    ThumbState × List String :=
  let p := evict_for_cache_size THUMBNAIL_CACHE_SIZE st deduplicated
  let st₁ := { p.1 with
      thumbnail_cache := dictSet p.1.thumbnail_cache source thumbnail }
  let q := dedup_step THUMBNAIL_CACHE_SIZE st₁ source thumbnail deduplicated
  (q.1, p.2 ++ q.2)

/-- The deferred-deletion step of `manage_grid_thumbnails` (tui/render.py
lines 716-726): delete exactly the queued thumbnails that are no longer
in-flight (`thumbnails_to_be_deleted - thumbnails_being_rendered.keys()`) and
keep the others queued. -/
def process_deferred_deletions (st : ThumbState) : ThumbState × List String :=
  let thumbnails_to_delete :=
    st.thumbnails_to_be_deleted.filter
      (fun t => !dictContainsKey st.thumbnails_being_rendered t)
  ({ st with
      thumbnails_to_be_deleted :=
        st.thumbnails_to_be_deleted.filter
          (fun t => dictContainsKey st.thumbnails_being_rendered t) },
    thumbnails_to_delete)

/-- Eviction does not modify the in-flight bookkeeping
`thumbnails_being_rendered` (only the grid render manager removes entries
from it). -/
theorem evict_preserves_rendered (size : Nat) (st : ThumbState)
    (deduplicated : Option String) :
    (evict_for_cache_size size st deduplicated).1.thumbnails_being_rendered =
      st.thumbnails_being_rendered := by
  unfold evict_for_cache_size
  split
  · split
    · dsimp only
      split <;> rfl
    · rfl
  · rfl

/-- Eviction deletes only thumbnails that are not in-flight. -/
theorem evict_deleted_not_rendered (size : Nat) (st : ThumbState)
    (deduplicated : Option String) :
    ∀ x ∈ (evict_for_cache_size size st deduplicated).2,
      dictContainsKey st.thumbnails_being_rendered x = false := by
  unfold evict_for_cache_size
  split
  · split
    · dsimp only
      split
      · intro x hx
        simp at hx
      · rename_i hother
        intro x hx
        simp at hx
        subst hx
        simpa using hother
    · intro x hx
      simp at hx
  · intro x hx
    simp at hx

/-- The deduplication tail does not modify `thumbnails_being_rendered`. -/
theorem dedup_preserves_rendered (size : Nat) (st : ThumbState)
    (source thumbnail : String) (deduplicated : Option String) :
    (dedup_step size st source thumbnail deduplicated).1.thumbnails_being_rendered =
      st.thumbnails_being_rendered := by
  unfold dedup_step
  split
  · split
    · dsimp only
      split <;> rfl
    · rfl
  · rfl

/-- The deduplication tail deletes only thumbnails that are not in-flight. -/
theorem dedup_deleted_not_rendered (size : Nat) (st : ThumbState)
    (source thumbnail : String) (deduplicated : Option String) :
    ∀ x ∈ (dedup_step size st source thumbnail deduplicated).2,
      dictContainsKey st.thumbnails_being_rendered x = false := by
  unfold dedup_step
  split
  · split
    · dsimp only
      split
      · intro x hx
        simp at hx
      · rename_i hd
        intro x hx
        simp at hx
        subst hx
        simpa using hd
    · intro x hx
      simp at hx
  · intro x hx
    simp at hx

/-- A set retains an inserted element. -/
theorem mem_setAdd_self (s : List String) (x : String) : x ∈ setAdd s x := by
  unfold setAdd
  split
  · assumption
  · simp

/-- When the new thumbnail was not deduplicated, eviction is skipped for a
deduplicated one; dually, when it was deduplicated the eviction step is a
no-op. -/
theorem evict_skip_of_deduplicated (size : Nat) (st : ThumbState)
    {deduplicated : Option String} (h : deduplicated ≠ none) :
    evict_for_cache_size size st deduplicated = (st, []) := by
  unfold evict_for_cache_size
  rw [if_neg]
  intro hc
  exact h hc.1

/-- C3: a thumbnail that is in-flight (a key of `thumbnails_being_rendered`)
is never passed to `delete_thumbnail`, neither by the eviction or
deduplication steps of `cache_thumbnail` nor by the deferred-deletion loop;
while in-flight it stays queued in `thumbnails_to_be_deleted`, and an
in-flight deduplicated thumbnail is queued there for deferred deletion
rather than deleted. -/
theorem c3_in_flight_thumbnail_never_deleted (size : Nat) (st : ThumbState)
    (source thumbnail : String) (deduplicated : Option String) (t : String)
    (ht : dictContainsKey st.thumbnails_being_rendered t = true) :
    t ∉ (cache_thumbnail size st source thumbnail deduplicated).2
      ∧ t ∉ (process_deferred_deletions st).2
      ∧ (t ∈ st.thumbnails_to_be_deleted →
          t ∈ (process_deferred_deletions st).1.thumbnails_to_be_deleted)
      ∧ (deduplicated = some t →
          (size = 0 ∨ dictContainsKey st.thumbnail_sources t = true) →
          t ∈ (cache_thumbnail size st source thumbnail
                deduplicated).1.thumbnails_to_be_deleted) := by
  refine ⟨?_, ?_, ?_, ?_⟩
  · intro hmem
    unfold cache_thumbnail at hmem
    dsimp only at hmem
    rcases List.mem_append.mp hmem with h | h
    · have := evict_deleted_not_rendered size st deduplicated t h
      rw [ht] at this
      exact Bool.noConfusion this
    · have h2 := dedup_deleted_not_rendered size
        { (evict_for_cache_size size st deduplicated).1 with
            thumbnail_cache :=
              dictSet (evict_for_cache_size size st deduplicated).1.thumbnail_cache
                source thumbnail }
        source thumbnail deduplicated t h
      dsimp only at h2
      rw [evict_preserves_rendered, ht] at h2
      exact Bool.noConfusion h2
  · intro hmem
    unfold process_deferred_deletions at hmem
    dsimp only at hmem
    have h2 := (List.mem_filter.mp hmem).2
    rw [ht] at h2
    simp at h2
  · intro hmem
    unfold process_deferred_deletions
    dsimp only
    exact List.mem_filter.mpr ⟨hmem, ht⟩
  · intro hdd hcond
    subst hdd
    unfold cache_thumbnail
    rw [evict_skip_of_deduplicated size st (by simp)]
    unfold dedup_step
    dsimp only
    split
    · exact mem_setAdd_self _ t
    · rename_i h2
      exact absurd hcond h2

/-- Witness for C3 at a concrete state whose only thumbnail `t` is in-flight:
`t` is neither deleted by `cache_thumbnail` nor by the deferred-deletion
loop, and stays queued for deferred deletion. -/
theorem c3_in_flight_thumbnail_never_deleted_witness :
    dictContainsKey
        (ThumbState.mk [("s", "t")] [] [("t", ["s"])] [("t", ["s"])] ["t"]).thumbnails_being_rendered
        "t" = true
      ∧ ("t" ∉ (cache_thumbnail 1
            (ThumbState.mk [("s", "t")] [] [("t", ["s"])] [("t", ["s"])] ["t"])
            "s2" "t2" none).2
          ∧ "t" ∉ (process_deferred_deletions
              (ThumbState.mk [("s", "t")] [] [("t", ["s"])] [("t", ["s"])] ["t"])).2
          ∧ ("t" ∈ (ThumbState.mk [("s", "t")] [] [("t", ["s"])] [("t", ["s"])]
                ["t"]).thumbnails_to_be_deleted →
              "t" ∈ (process_deferred_deletions
                (ThumbState.mk [("s", "t")] [] [("t", ["s"])] [("t", ["s"])]
                  ["t"])).1.thumbnails_to_be_deleted)
          ∧ ((none : Option String) = some "t" →
              (1 = 0 ∨ dictContainsKey
                (ThumbState.mk [("s", "t")] [] [("t", ["s"])] [("t", ["s"])]
                  ["t"]).thumbnail_sources "t" = true) →
              "t" ∈ (cache_thumbnail 1
                (ThumbState.mk [("s", "t")] [] [("t", ["s"])] [("t", ["s"])] ["t"])
                "s2" "t2" none).1.thumbnails_to_be_deleted)) := by
  refine ⟨by decide, ?_⟩
  exact c3_in_flight_thumbnail_never_deleted 1
    (ThumbState.mk [("s", "t")] [] [("t", ["s"])] [("t", ["s"])] ["t"])
    "s2" "t2" none "t" (by decide)

/-- Dict assignment grows the mapping by at most one entry. -/
theorem length_dictSet_le {α : Type} (m : List (String × α)) (k : String) (v : α) :
    (dictSet m k v).length ≤ m.length + 1 := by
  induction m with
  | nil => simp [dictSet]
  | cons p rest ih =>
    unfold dictSet
    split
    · simp
    · simpa using Nat.succ_le_succ ih

/-- Deleting a present key shrinks the mapping by exactly one entry. -/
theorem length_dictErase_of_contains {α : Type} (m : List (String × α))
    (k : String) (h : dictContainsKey m k = true) :
    (dictErase m k).length + 1 = m.length := by
  induction m with
  | nil => simp [dictContainsKey] at h
  | cons p rest ih =>
    unfold dictContainsKey at h
    unfold dictErase
    split
    · rfl
    · rename_i hne
      rw [if_neg hne] at h
      simpa using ih h

/-- The running minimum returned by `minSourcesKeyAux` is the initial
candidate or one of the scanned keys. -/
theorem minSourcesKeyAux_key_mem (rest : List (String × List String)) :
    ∀ (bk : String) (bl : Nat),
      minSourcesKeyAux bk bl rest ∈ bk :: rest.map Prod.fst := by
  induction rest with
  | nil => intro bk bl; simp [minSourcesKeyAux]
  | cons p rest ih =>
    intro bk bl
    unfold minSourcesKeyAux
    split
    · rcases List.mem_cons.mp (ih p.1 p.2.length) with h | h
      · simp [h]
      · simp [List.mem_cons_of_mem, h]
    · rcases List.mem_cons.mp (ih bk bl) with h | h
      · simp [h]
      · simp [List.mem_cons_of_mem, h]

/-- A name occurring among the keys is contained in the dict. -/
theorem dictContainsKey_of_key_mem {α : Type} {m : List (String × α)} {k : String}
    (h : k ∈ m.map Prod.fst) : dictContainsKey m k = true := by
  induction m with
  | nil => simp at h
  | cons p rest ih =>
    rw [List.map_cons] at h
    unfold dictContainsKey
    rcases List.mem_cons.mp h with h2 | h2
    · rw [if_pos h2.symm]
    · split
      · rfl
      · exact ih h2

/-- The key selected for eviction is one of the dict's keys. -/
theorem minSourcesKey_contains {m : List (String × List String)} {r : String}
    (hr : minSourcesKey m = some r) : dictContainsKey m r = true := by
  cases m with
  | nil => simp [minSourcesKey] at hr
  | cons p rest =>
    unfold minSourcesKey at hr
    have hmem := minSourcesKeyAux_key_mem rest p.1 p.2.length
    rw [Option.some_inj.mp hr] at hmem
    exact dictContainsKey_of_key_mem (by simpa using hmem)

/-- Specification of the running minimum: `minSourcesKeyAux bk bl rest`
returns a key whose tracked length is at most `bl` and at most the length of
every value in `rest`; the key is the initial candidate (with length `bl`) or
a key of `rest` (with its value's length). -/
theorem minSourcesKeyAux_spec (rest : List (String × List String)) :
    ∀ (bk : String) (bl : Nat),
      ∃ rl : Nat,
        ((minSourcesKeyAux bk bl rest = bk ∧ rl = bl)
          ∨ ∃ v, (minSourcesKeyAux bk bl rest, v) ∈ rest ∧ v.length = rl)
        ∧ rl ≤ bl ∧ ∀ p ∈ rest, rl ≤ p.2.length := by
  induction rest with
  | nil =>
    intro bk bl
    exact ⟨bl, Or.inl ⟨rfl, rfl⟩, le_refl bl, by simp⟩
  | cons p rest ih =>
    intro bk bl
    unfold minSourcesKeyAux
    split
    · rename_i hlt
      obtain ⟨rl, hcase, hle, hall⟩ := ih p.1 p.2.length
      refine ⟨rl, ?_, le_of_lt (lt_of_le_of_lt hle hlt), ?_⟩
      · rcases hcase with ⟨heq, hrl⟩ | ⟨v, hv, hvl⟩
        · exact Or.inr ⟨p.2, by simp [heq], by omega⟩
        · exact Or.inr ⟨v, List.mem_cons_of_mem p hv, hvl⟩
      · intro q hq
        rcases List.mem_cons.mp hq with h | h
        · rw [h]; exact hle
        · exact hall q h
    · rename_i hge
      obtain ⟨rl, hcase, hle, hall⟩ := ih bk bl
      refine ⟨rl, ?_, hle, ?_⟩
      · rcases hcase with ⟨heq, hrl⟩ | ⟨v, hv, hvl⟩
        · exact Or.inl ⟨heq, hrl⟩
        · exact Or.inr ⟨v, List.mem_cons_of_mem p hv, hvl⟩
      · intro q hq
        rcases List.mem_cons.mp hq with h | h
        · rw [h]; omega
        · exact hall q h

/-- In a dict with pairwise distinct keys, lookup of a key returns the value
it is paired with. -/
theorem dictGet_of_mem_nodup {α : Type} {m : List (String × α)} {k : String}
    {v : α} (hnd : (m.map Prod.fst).Nodup) (h : (k, v) ∈ m) :
    dictGet m k = some v := by
  induction m with
  | nil => simp at h
  | cons p rest ih =>
    rw [List.map_cons] at hnd
    obtain ⟨hp, hrest⟩ := List.nodup_cons.mp hnd
    unfold dictGet
    rcases List.mem_cons.mp h with h2 | h2
    · rw [if_pos (congrArg Prod.fst h2).symm]
      rw [← h2]
    · split
      · rename_i heq
        exact absurd (List.mem_map.mpr ⟨(k, v), h2, rfl⟩) (heq ▸ hp)
      · exact ih hrest h2

/-- For a nonempty dict with distinct keys, `minSourcesKey` selects a key
whose value has minimal length among all values. -/
theorem minSourcesKey_min {m : List (String × List String)} {r : String}
    (hnd : (m.map Prod.fst).Nodup) (hr : minSourcesKey m = some r) :
    ∃ rv, dictGet m r = some rv ∧ ∀ p ∈ m, rv.length ≤ p.2.length := by
  cases m with
  | nil => simp [minSourcesKey] at hr
  | cons p rest =>
    unfold minSourcesKey at hr
    have hr2 := Option.some_inj.mp hr
    obtain ⟨rl, hcase, hle, hall⟩ := minSourcesKeyAux_spec rest p.1 p.2.length
    rcases hcase with ⟨heq, hrl⟩ | ⟨v, hv, hvl⟩
    · rw [heq] at hr2
      subst hr2
      refine ⟨p.2, ?_, ?_⟩
      · unfold dictGet
        rw [if_pos rfl]
      · intro q hq
        rcases List.mem_cons.mp hq with h | h
        · rw [h]
        · exact hrl ▸ hall q h
    · rw [hr2] at hv
      refine ⟨v, dictGet_of_mem_nodup hnd (List.mem_cons_of_mem p hv), ?_⟩
      intro q hq
      rcases List.mem_cons.mp hq with h | h
      · rw [h, hvl]; exact hle
      · rw [hvl]; exact hall q h

/-- When its entry condition fails, the eviction step is a no-op. -/
theorem evict_noop (size : Nat) (st : ThumbState) (deduplicated : Option String)
    (h : ¬(deduplicated = none ∧ 0 < size ∧ size = st.thumbnail_sources.length)) :
    evict_for_cache_size size st deduplicated = (st, []) := by
  unfold evict_for_cache_size
  rw [if_neg h]

/-- When a full bounded cache receives a non-deduplicated thumbnail, the
eviction step removes exactly the minimal key from `thumbnail_sources`. -/
theorem evict_sources_full (size : Nat) (st : ThumbState) {other : String}
    (hpos : 0 < size) (hfull : size = st.thumbnail_sources.length)
    (hmin : minSourcesKey st.thumbnail_sources = some other) :
    (evict_for_cache_size size st none).1.thumbnail_sources =
      dictErase st.thumbnail_sources other := by
  unfold evict_for_cache_size
  rw [if_pos ⟨rfl, hpos, hfull⟩, hmin]
  split
  · rename_i r heq
    obtain rfl : other = r := Option.some_inj.mp heq
    dsimp only
    split <;> rfl
  · rename_i heq
    exact Option.noConfusion heq

/-- The deduplication tail for a non-deduplicated thumbnail just links the
new thumbnail to its source. -/
theorem dedup_step_sources_none (size : Nat) (st : ThumbState)
    (source thumbnail : String) :
    (dedup_step size st source thumbnail none).1.thumbnail_sources =
      dictSet st.thumbnail_sources thumbnail [source] := rfl

/-- The deduplication tail for a deduplicated thumbnail that has not been
evicted re-keys the deduplicated entry of `thumbnail_sources` onto the new
thumbnail, regardless of whether the deduplicated thumbnail is in-flight. -/
theorem dedup_step_sources_some (size : Nat) (st : ThumbState)
    (source thumbnail d : String)
    (hcond : size = 0 ∨ dictContainsKey st.thumbnail_sources d = true) :
    (dedup_step size st source thumbnail (some d)).1.thumbnail_sources =
      dictSet (dictErase st.thumbnail_sources d) thumbnail
        ((dictGet st.thumbnail_sources d).getD [] ++ [source]) := by
  unfold dedup_step
  try dsimp only
  rw [if_pos hcond]
  try dsimp only
  split <;> rfl

/-- C4 (counterexample): with a configured maximum of 1, caching a thumbnail
deduplicated against an already-evicted thumbnail (`"t0"`, no longer a key of
`thumbnail_sources`) pushes the number of cached thumbnail mappings to 2,
exceeding the configured maximum — the claimed bound does not hold for every
call. -/
theorem c4_cache_bound_counterexample :
    (0 : Nat) < 1
      ∧ (ThumbState.mk [("s1", "t1")] [] [("t1", ["s1"])] [] []).thumbnail_sources.length = 1
      ∧ ¬((cache_thumbnail 1 (ThumbState.mk [("s1", "t1")] [] [("t1", ["s1"])] [] [])
            "s2" "t2" (some "t0")).1.thumbnail_sources.length ≤ 1) := by
  refine ⟨by decide, by decide, ?_⟩
  decide

/-- C4 (amended): after a call to `cache_thumbnail` with a configured maximum
`THUMBNAIL_CACHE_SIZE > 0`, a cache previously within the bound stays within
the bound provided the thumbnail is not deduplicated — or is deduplicated
against a thumbnail still present in the cache; and when the bound is reached
(for a non-deduplicated thumbnail) the evicted entry is exactly the one
selected by `minSourcesKey`: a thumbnail with the fewest linked sources, ties
resolved in favour of the oldest. -/
theorem c4_cache_bound_amended (size : Nat) (st : ThumbState)
    (source thumbnail : String) (deduplicated : Option String)
    (hpos : 0 < size)
    (hnd : (st.thumbnail_sources.map Prod.fst).Nodup)
    (hle : st.thumbnail_sources.length ≤ size)
    (hdd : deduplicated = none
      ∨ ∃ d, deduplicated = some d
          ∧ dictContainsKey st.thumbnail_sources d = true) :
    (cache_thumbnail size st source thumbnail
        deduplicated).1.thumbnail_sources.length ≤ size
      ∧ (deduplicated = none → st.thumbnail_sources.length = size →
          ∃ other rv, minSourcesKey st.thumbnail_sources = some other
            ∧ dictGet st.thumbnail_sources other = some rv
            ∧ (∀ p ∈ st.thumbnail_sources, rv.length ≤ p.2.length)
            ∧ (cache_thumbnail size st source thumbnail
                deduplicated).1.thumbnail_sources =
                dictSet (dictErase st.thumbnail_sources other) thumbnail
                  [source]) := by
  rcases hdd with hdd | ⟨d, hdd, hcont⟩
  · subst hdd
    by_cases hfull : st.thumbnail_sources.length = size
    · obtain ⟨other, hmin⟩ : ∃ r, minSourcesKey st.thumbnail_sources = some r := by
        cases hsrc : st.thumbnail_sources with
        | nil =>
          rw [hsrc] at hfull
          simp at hfull
          omega
        | cons p rest => exact ⟨minSourcesKeyAux p.1 p.2.length rest, rfl⟩
      have hcontother : dictContainsKey st.thumbnail_sources other = true :=
        minSourcesKey_contains hmin
      have hsrcs : (cache_thumbnail size st source thumbnail
          none).1.thumbnail_sources =
          dictSet (dictErase st.thumbnail_sources other) thumbnail [source] := by
        unfold cache_thumbnail
        dsimp only
        rw [dedup_step_sources_none]
        dsimp only
        rw [evict_sources_full size st hpos hfull.symm hmin]
      constructor
      · rw [hsrcs]
        have h1 := length_dictSet_le (dictErase st.thumbnail_sources other)
          thumbnail [source]
        have h2 := length_dictErase_of_contains st.thumbnail_sources other
          hcontother
        omega
      · intro _ _
        obtain ⟨rv, hget, hminlen⟩ := minSourcesKey_min hnd hmin
        exact ⟨other, rv, hmin, hget, hminlen, hsrcs⟩
    · have hlt : st.thumbnail_sources.length < size := lt_of_le_of_ne hle
        fun h => hfull h
      have hsrcs : (cache_thumbnail size st source thumbnail
          none).1.thumbnail_sources =
          dictSet st.thumbnail_sources thumbnail [source] := by
        unfold cache_thumbnail
        dsimp only
        rw [dedup_step_sources_none]
        dsimp only
        rw [evict_noop size st none (fun h => hfull h.2.2.symm)]
      constructor
      · rw [hsrcs]
        have h1 := length_dictSet_le st.thumbnail_sources thumbnail [source]
        omega
      · intro _ hfull2
        exact absurd hfull2 hfull
  · subst hdd
    constructor
    · have hsrcs : (cache_thumbnail size st source thumbnail
          (some d)).1.thumbnail_sources =
          dictSet (dictErase st.thumbnail_sources d) thumbnail
            ((dictGet st.thumbnail_sources d).getD [] ++ [source]) := by
        unfold cache_thumbnail
        rw [evict_noop size st (some d) (fun h => Option.noConfusion h.1)]
        try dsimp only
        unfold dedup_step
        try dsimp only
        rw [if_pos (Or.inr
          (show dictContainsKey st.thumbnail_sources d = true from hcont))]
        try dsimp only
        split <;> rfl
      rw [hsrcs]
      have h1 := length_dictSet_le (dictErase st.thumbnail_sources d) thumbnail
        ((dictGet st.thumbnail_sources d).getD [] ++ [source])
      have h2 := length_dictErase_of_contains st.thumbnail_sources d hcont
      omega
    · intro hnone
      exact absurd hnone (by simp)

/-- Witness for the amended C4 at a concrete full cache of maximum size 1:
the single thumbnail `t1` is evicted and replaced, keeping the mapping count
at the bound. -/
theorem c4_cache_bound_amended_witness :
    (0 : Nat) < 1
      ∧ ((ThumbState.mk [("s1", "t1")] [] [("t1", ["s1"])] [] []).thumbnail_sources.map
          Prod.fst).Nodup
      ∧ (ThumbState.mk [("s1", "t1")] [] [("t1", ["s1"])] [] []).thumbnail_sources.length ≤ 1
      ∧ (cache_thumbnail 1 (ThumbState.mk [("s1", "t1")] [] [("t1", ["s1"])] [] [])
          "s2" "t2" none).1.thumbnail_sources.length ≤ 1 := by
  refine ⟨by decide, by decide, by decide, ?_⟩
  exact (c4_cache_bound_amended 1
    (ThumbState.mk [("s1", "t1")] [] [("t1", ["s1"])] [] []) "s2" "t2" none
    (by decide) (by decide) (by decide) (Or.inl rfl)).1

/-! ### Directory scanning (`check_dir`, cli.py lines 121-235) -/

mutual
/-- A directory entry of the scanned filesystem: a file (readable when the
image decoder accepts it — `Image.open` succeeds) or a sub-directory.
Symlinks are treated separately (see the cycle-detection development below);
this tree model covers the file/directory walk of `check_dir`. -/
inductive FSEntry where
  | file (name : String) (readable : Bool)
  | dir (name : String) (sub : FSDir)
deriving DecidableEq, Repr
/-- The listing of a directory, in `os.scandir` order. -/
inductive FSDir where
  | nil
  | cons (entry : FSEntry) (rest : FSDir)
deriving DecidableEq, Repr
end

mutual
/-- The content tree built by `check_dir`: the `"/"` marker (does this
directory itself contain image files) plus one child per non-empty
sub-directory. -/
inductive ContentTree where
  | mk (hasImages : Bool) (children : ContentForest)
deriving DecidableEq, Repr
/-- The children of a content tree node, in insertion order. -/
inductive ContentForest where
  | nil
  | cons (name : String) (tree : ContentTree) (rest : ContentForest)
deriving DecidableEq, Repr
end

/-- Concatenation of two child lists. -/
def ContentForest.append : ContentForest → ContentForest → ContentForest
  | .nil, ys => ys
  | .cons n t rest, ys => .cons n t (rest.append ys)

/-- Whether a child list is empty. -/
def ContentForest.isNil : ContentForest → Bool
  | .nil => true
  | .cons _ _ _ => false

/-- The entry loop of `check_dir` (cli.py lines 171-226) over a directory
listing, threading the `empty` flag and accumulated `content`.  For a file:
when no image has been found yet, probe it with the decoder; on success clear
`empty` and, when not recursive, `break`.  For a sub-directory (recursive
mode): skip it beyond the depth limit (breaking when an image was already
found), otherwise scan it at depth+1 and record the resulting tree under the
entry's name when non-empty (`if result: content[entry.name] = result`,
inlined from the recursive `check_dir` call, whose result is `None` exactly
when the sub-scan ends empty with no children). -/
def scan_entries (recursive showHidden : Bool) (maxDepth : Nat) :
    Nat → FSDir → Bool → ContentForest → Bool × ContentForest
  | _, FSDir.nil, empty, content => (empty, content)
  | depth, FSDir.cons (FSEntry.file name readable) rest, empty, content =>
      if ¬showHidden ∧ name.startsWith "." then
        scan_entries recursive showHidden maxDepth depth rest empty content
      else if empty ∧ readable then
        if ¬recursive then (false, content)
        else scan_entries recursive showHidden maxDepth depth rest false content
      else scan_entries recursive showHidden maxDepth depth rest empty content
  | depth, FSDir.cons (FSEntry.dir name sub) rest, empty, content =>
      if ¬showHidden ∧ name.startsWith "." then
        scan_entries recursive showHidden maxDepth depth rest empty content
      else if recursive then
        if depth > maxDepth then
          if ¬(empty = true) then (empty, content)
          else scan_entries recursive showHidden maxDepth depth rest empty content
        else
          let p := scan_entries recursive showHidden maxDepth (depth + 1) sub
            true ContentForest.nil
          if p.1 ∧ p.2 = ContentForest.nil then
            scan_entries recursive showHidden maxDepth depth rest empty content
          else
            scan_entries recursive showHidden maxDepth depth rest empty
              (content.append (ContentForest.cons name
                (ContentTree.mk (!p.1) p.2) ContentForest.nil))
      else scan_entries recursive showHidden maxDepth depth rest empty content

/-- `check_dir(dir)` at a given depth (`_depth` is incremented on entry, so
the root call runs at depth 1): scan the entries and return `None` when no
image was found and no non-empty sub-directory was recorded, else the tree
with the `"/"` marker set when the directory has image files. -/
def check_dir (recursive showHidden : Bool) (maxDepth depth : Nat) (d : FSDir) :
    Option ContentTree :=
  let p := scan_entries recursive showHidden maxDepth depth d true ContentForest.nil
  if p.1 ∧ p.2 = ContentForest.nil then none
  else some (ContentTree.mk (!p.1) p.2)

/-- Specification-side predicate: the directory, or some descendant,
contains at least one readable image. -/
def dirContainsReadable : FSDir → Bool
  | FSDir.nil => false
  | FSDir.cons (FSEntry.file _ readable) rest =>
      readable || dirContainsReadable rest
  | FSDir.cons (FSEntry.dir _ sub) rest =>
      dirContainsReadable sub || dirContainsReadable rest

/-- The directory directly contains a readable image file. -/
def dirHasReadableFile : FSDir → Bool
  | FSDir.nil => false
  | FSDir.cons (FSEntry.file _ readable) rest =>
      readable || dirHasReadableFile rest
  | FSDir.cons (FSEntry.dir _ _) rest => dirHasReadableFile rest

/-- Some sub-directory of the directory contains a readable image
(recursively). -/
def dirSubReadable : FSDir → Bool
  | FSDir.nil => false
  | FSDir.cons (FSEntry.file _ _) rest => dirSubReadable rest
  | FSDir.cons (FSEntry.dir _ sub) rest =>
      dirContainsReadable sub || dirSubReadable rest

/-- The nesting height of a directory tree: the number of directory levels
that a full recursive scan must descend into. -/
def dirNesting : FSDir → Nat
  | FSDir.nil => 0
  | FSDir.cons (FSEntry.file _ _) rest => dirNesting rest
  | FSDir.cons (FSEntry.dir _ sub) rest =>
      max (dirNesting sub + 1) (dirNesting rest)

mutual
/-- Every node of the tree is non-empty: it has images or children, and all
its subtrees are non-empty. -/
def treeNonEmpty : ContentTree → Bool
  | ContentTree.mk hasImages children =>
      (hasImages || !children.isNil) && forestNonEmpty children
/-- All trees of the child list are non-empty. -/
def forestNonEmpty : ContentForest → Bool
  | ContentForest.nil => true
  | ContentForest.cons _ t rest => treeNonEmpty t && forestNonEmpty rest
end

/-- Appending the empty child list is the identity. -/
theorem ContentForest.append_nil : ∀ c : ContentForest,
    c.append ContentForest.nil = c
  | .nil => rfl
  | .cons n t rest => by
      rw [ContentForest.append, ContentForest.append_nil rest]

/-- Appending child lists is associative. -/
theorem ContentForest.append_assoc : ∀ a b c : ContentForest,
    (a.append b).append c = a.append (b.append c)
  | .nil, _, _ => rfl
  | .cons n t rest, b, c => by
      rw [ContentForest.append, ContentForest.append,
        ContentForest.append_assoc rest b c, ContentForest.append]

/-- A concatenation is all-non-empty exactly when both parts are. -/
theorem forestNonEmpty_append : ∀ a b : ContentForest,
    forestNonEmpty (a.append b) = (forestNonEmpty a && forestNonEmpty b)
  | .nil, b => by simp [ContentForest.append, forestNonEmpty]
  | .cons n t rest, b => by
      rw [ContentForest.append, forestNonEmpty, forestNonEmpty,
        forestNonEmpty_append rest b, Bool.and_assoc]

/-- Containing a readable image decomposes into having a readable file
directly or in some sub-directory. -/
theorem dirContainsReadable_eq : ∀ d : FSDir,
    dirContainsReadable d = (dirHasReadableFile d || dirSubReadable d)
  | FSDir.nil => rfl
  | FSDir.cons (FSEntry.file n r) rest => by
      rw [dirContainsReadable, dirHasReadableFile, dirSubReadable,
        dirContainsReadable_eq rest, Bool.or_assoc]
  | FSDir.cons (FSEntry.dir n sub) rest => by
      rw [dirContainsReadable, dirHasReadableFile, dirSubReadable,
        dirContainsReadable_eq rest]
      cases dirContainsReadable sub <;>
        cases dirHasReadableFile rest <;> cases dirSubReadable rest <;> rfl

/-- The `content` accumulator of the scan loop is write-only: scanning with
any accumulator equals scanning with an empty accumulator and appending. -/
theorem scan_entries_acc (recursive showHidden : Bool) (maxDepth : Nat) :
    ∀ (d : FSDir) (depth : Nat) (empty : Bool) (content : ContentForest),
      scan_entries recursive showHidden maxDepth depth d empty content =
        ((scan_entries recursive showHidden maxDepth depth d empty
            ContentForest.nil).1,
          content.append
            (scan_entries recursive showHidden maxDepth depth d empty
              ContentForest.nil).2)
  | FSDir.nil, depth, empty, content => by
      rw [scan_entries, scan_entries, ContentForest.append_nil]
  | FSDir.cons (FSEntry.file name readable) rest, depth, empty, content => by
      simp only [scan_entries]
      split_ifs
      all_goals first
        | (dsimp only; rw [ContentForest.append_nil])
        | exact scan_entries_acc recursive showHidden maxDepth rest depth empty
            content
        | exact scan_entries_acc recursive showHidden maxDepth rest depth false
            content
  | FSDir.cons (FSEntry.dir name sub) rest, depth, empty, content => by
      simp only [scan_entries]
      split_ifs
      all_goals first
        | (dsimp only; rw [ContentForest.append_nil])
        | exact scan_entries_acc recursive showHidden maxDepth rest depth empty
            content
        | (dsimp only [ContentForest.append]
           rw [scan_entries_acc recursive showHidden maxDepth rest depth empty
             (content.append (ContentForest.cons name (ContentTree.mk
               (!(scan_entries recursive showHidden maxDepth (depth + 1) sub
                 true ContentForest.nil).1)
               (scan_entries recursive showHidden maxDepth (depth + 1) sub
                 true ContentForest.nil).2) ContentForest.nil)),
             scan_entries_acc recursive showHidden maxDepth rest depth empty
             (ContentForest.cons name (ContentTree.mk
               (!(scan_entries recursive showHidden maxDepth (depth + 1) sub
                 true ContentForest.nil).1)
               (scan_entries recursive showHidden maxDepth (depth + 1) sub
                 true ContentForest.nil).2) ContentForest.nil),
             ContentForest.append_assoc])

/-- Characterization of a full scan (recursive, hidden entries shown, tree
within the depth budget): the final `empty` flag is cleared exactly when a
readable file was found in the directory itself, and the accumulated children
are empty exactly when no sub-directory contains a readable image. -/
theorem scan_spec (maxDepth : Nat) :
    ∀ (d : FSDir) (depth : Nat) (empty : Bool),
      depth + dirNesting d ≤ maxDepth + 1 →
      (scan_entries true true maxDepth depth d empty ContentForest.nil).1 =
          (empty && !dirHasReadableFile d)
        ∧ ((scan_entries true true maxDepth depth d empty
              ContentForest.nil).2 = ContentForest.nil
            ↔ dirSubReadable d = false)
  | FSDir.nil, depth, empty, h => by
      rw [scan_entries]
      refine ⟨by simp [dirHasReadableFile], by simp [dirSubReadable]⟩
  | FSDir.cons (FSEntry.file name readable) rest, depth, empty, h => by
      have hbound : depth + dirNesting rest ≤ maxDepth + 1 := by
        rw [dirNesting] at h
        exact h
      rw [scan_entries, if_neg (fun hc => hc.1 rfl)]
      by_cases h2 : empty = true ∧ readable = true
      · rw [if_pos h2, if_neg (fun hc => hc rfl)]
        obtain ⟨he, hr⟩ := h2
        subst he
        subst hr
        obtain ⟨h1, hiff⟩ := scan_spec maxDepth rest depth false hbound
        refine ⟨?_, ?_⟩
        · rw [h1]
          simp [dirHasReadableFile]
        · rw [hiff]
          rw [dirSubReadable]
      · rw [if_neg h2]
        obtain ⟨h1, hiff⟩ := scan_spec maxDepth rest depth empty hbound
        refine ⟨?_, ?_⟩
        · rw [h1, dirHasReadableFile]
          cases empty with
          | false => simp
          | true =>
            cases readable with
            | false => simp
            | true => exact absurd ⟨rfl, rfl⟩ h2
        · rw [hiff, dirSubReadable]
  | FSDir.cons (FSEntry.dir name sub) rest, depth, empty, h => by
      have hmax1 : dirNesting sub + 1 ≤
          max (dirNesting sub + 1) (dirNesting rest) := Nat.le_max_left _ _
      have hmax2 : dirNesting rest ≤
          max (dirNesting sub + 1) (dirNesting rest) := Nat.le_max_right _ _
      rw [dirNesting] at h
      have hboundsub : depth + 1 + dirNesting sub ≤ maxDepth + 1 := by omega
      have hboundrest : depth + dirNesting rest ≤ maxDepth + 1 := by omega
      have hdep : ¬depth > maxDepth := by omega
      rw [scan_entries, if_neg (fun hc => hc.1 rfl), if_pos rfl, if_neg hdep]
      obtain ⟨hs1, hsiff⟩ := scan_spec maxDepth sub (depth + 1) true hboundsub
      obtain ⟨hr1, hriff⟩ := scan_spec maxDepth rest depth empty hboundrest
      by_cases hcs : dirContainsReadable sub = false
      · have hcond : (scan_entries true true maxDepth (depth + 1) sub true
            ContentForest.nil).1 = true
            ∧ (scan_entries true true maxDepth (depth + 1) sub true
                ContentForest.nil).2 = ContentForest.nil := by
          rw [dirContainsReadable_eq] at hcs
          simp only [Bool.or_eq_false_iff] at hcs
          refine ⟨?_, hsiff.mpr hcs.2⟩
          rw [hs1, hcs.1]
          rfl
        rw [if_pos hcond]
        refine ⟨by rw [hr1, dirHasReadableFile], ?_⟩
        rw [hriff, dirSubReadable, hcs]
        simp
      · have hcond : ¬((scan_entries true true maxDepth (depth + 1) sub true
            ContentForest.nil).1 = true
            ∧ (scan_entries true true maxDepth (depth + 1) sub true
                ContentForest.nil).2 = ContentForest.nil) := by
          intro hc
          apply hcs
          rw [dirContainsReadable_eq]
          have hf : dirHasReadableFile sub = false := by
            have := hc.1
            rw [hs1] at this
            cases hff : dirHasReadableFile sub with
            | false => rfl
            | true => rw [hff] at this; exact Bool.noConfusion this
          rw [hf, hsiff.mp hc.2]
          rfl
        rw [if_neg hcond]
        rw [scan_entries_acc true true maxDepth rest depth empty
          (ContentForest.nil.append (ContentForest.cons name
            (ContentTree.mk
              (!(scan_entries true true maxDepth (depth + 1) sub true
                ContentForest.nil).1)
              (scan_entries true true maxDepth (depth + 1) sub true
                ContentForest.nil).2) ContentForest.nil))]
        refine ⟨by rw [hr1, dirHasReadableFile], ?_⟩
        have hne : dirSubReadable (FSDir.cons (FSEntry.dir name sub) rest) =
            true := by
          rw [dirSubReadable]
          cases hcc : dirContainsReadable sub with
          | false => exact absurd hcc hcs
          | true => rfl
        rw [hne]
        simp [ContentForest.append]
  termination_by d => sizeOf d

/-- A non-empty child list is not `nil`. -/
theorem ContentForest.isNil_eq_false {c : ContentForest}
    (h : c ≠ ContentForest.nil) : c.isNil = false := by
  cases c with
  | nil => exact absurd rfl h
  | cons n t rest => rfl

/-- Every tree accumulated by the scan loop is non-empty, provided the
accumulator holds only non-empty trees. -/
theorem scan_nonempty (recursive showHidden : Bool) (maxDepth : Nat) :
    ∀ (d : FSDir) (depth : Nat) (empty : Bool) (content : ContentForest),
      forestNonEmpty content = true →
      forestNonEmpty
        (scan_entries recursive showHidden maxDepth depth d empty content).2 =
        true
  | FSDir.nil, depth, empty, content => by
      intro hcont
      rw [scan_entries]
      exact hcont
  | FSDir.cons (FSEntry.file name readable) rest, depth, empty, content => by
      intro hcont
      simp only [scan_entries]
      split_ifs
      all_goals first
        | exact hcont
        | exact scan_nonempty recursive showHidden maxDepth rest depth empty
            content hcont
        | exact scan_nonempty recursive showHidden maxDepth rest depth false
            content hcont
  | FSDir.cons (FSEntry.dir name sub) rest, depth, empty, content => by
      intro hcont
      simp only [scan_entries]
      split_ifs
      all_goals first
        | exact hcont
        | exact scan_nonempty recursive showHidden maxDepth rest depth empty
            content hcont
        | (rename_i hrec hdep hcond
           refine scan_nonempty recursive showHidden maxDepth rest depth empty
             _ ?_
           rw [forestNonEmpty_append, hcont, forestNonEmpty, forestNonEmpty,
             treeNonEmpty]
           have hfne := scan_nonempty recursive showHidden maxDepth sub
             (depth + 1) true ContentForest.nil rfl
           rw [hfne]
           cases hp1 : (scan_entries recursive showHidden maxDepth (depth + 1)
               sub true ContentForest.nil).1 with
           | false => rfl
           | true =>
             have hp2 : (scan_entries recursive showHidden maxDepth (depth + 1)
                 sub true ContentForest.nil).2 ≠ ContentForest.nil :=
               fun hn => hcond ⟨hp1, hn⟩
             rw [ContentForest.isNil_eq_false hp2]
             rfl)

/-- A full scan within the depth budget returns `None` exactly when the
directory contains no readable image, directly or in any descendant. -/
theorem check_dir_none_iff (maxDepth depth : Nat) (d : FSDir)
    (h : depth + dirNesting d ≤ maxDepth + 1) :
    (check_dir true true maxDepth depth d = none
      ↔ dirContainsReadable d = false) := by
  obtain ⟨h1, hiff⟩ := scan_spec maxDepth d depth true h
  rw [Bool.true_and] at h1
  have hcond : ((scan_entries true true maxDepth depth d true
        ContentForest.nil).1 = true
      ∧ (scan_entries true true maxDepth depth d true
          ContentForest.nil).2 = ContentForest.nil)
      ↔ dirContainsReadable d = false := by
    rw [dirContainsReadable_eq, Bool.or_eq_false_iff, h1, hiff,
      Bool.not_eq_eq_eq_not]
    rfl
  unfold check_dir
  dsimp only
  split
  · rename_i hc
    simp only [true_iff]
    exact hcond.mp hc
  · rename_i hc
    constructor
    · intro hs
      exact Option.noConfusion hs
    · intro hcc
      exact absurd (hcond.mpr hcc) hc

/-- Every tree returned by `check_dir` has only non-empty nodes. -/
theorem check_dir_some_nonempty (recursive showHidden : Bool)
    (maxDepth depth : Nat) (d : FSDir) (t : ContentTree)
    (hsome : check_dir recursive showHidden maxDepth depth d = some t) :
    treeNonEmpty t = true := by
  unfold check_dir at hsome
  dsimp only at hsome
  split at hsome
  · exact Option.noConfusion hsome
  · rename_i hc
    obtain rfl : ContentTree.mk
        (!(scan_entries recursive showHidden maxDepth depth d true
          ContentForest.nil).1)
        (scan_entries recursive showHidden maxDepth depth d true
          ContentForest.nil).2 = t := Option.some_inj.mp hsome
    rw [treeNonEmpty]
    have hfne := scan_nonempty recursive showHidden maxDepth d depth true
      ContentForest.nil rfl
    rw [hfne]
    cases hp1 : (scan_entries recursive showHidden maxDepth depth d true
        ContentForest.nil).1 with
    | false => rfl
    | true =>
      have hp2 : (scan_entries recursive showHidden maxDepth depth d true
          ContentForest.nil).2 ≠ ContentForest.nil := fun hn => hc ⟨hp1, hn⟩
      rw [ContentForest.isNil_eq_false hp2]
      rfl

/-- C5 (counterexample): with `MAX_DEPTH = 1` (a valid configuration:
`max_depth > 0`), a readable image two directory levels below the scanned
root is beyond the depth limit, so `check_dir` returns `None` although the
directory recursively contains a readable image — the claimed equivalence
does not hold for every scanned tree. -/
theorem c5_check_dir_counterexample :
    (0 : Nat) < 1
      ∧ dirContainsReadable
          (FSDir.cons (FSEntry.dir "a" (FSDir.cons
            (FSEntry.dir "b" (FSDir.cons (FSEntry.file "img" true) FSDir.nil))
            FSDir.nil)) FSDir.nil) = true
      ∧ check_dir true true 1 1
          (FSDir.cons (FSEntry.dir "a" (FSDir.cons
            (FSEntry.dir "b" (FSDir.cons (FSEntry.file "img" true) FSDir.nil))
            FSDir.nil)) FSDir.nil) = none := by
  refine ⟨by decide, by decide, by decide⟩

/-- C5 (amended): for a recursive scan with hidden entries shown and a tree
whose nesting fits within the depth budget (`depth + dirNesting d ≤
MAX_DEPTH + 1`, the root call running at depth 1), `check_dir` returns
`None` exactly when the directory contains no readable image recursively —
so a content tree node exists for a path iff the path or some descendant
contains a readable image — and every node of a returned tree is non-empty
(the latter for every configuration and depth). -/
theorem c5_check_dir_content_iff (maxDepth depth : Nat) (d : FSDir)
    (h : depth + dirNesting d ≤ maxDepth + 1) :
    (check_dir true true maxDepth depth d = none
        ↔ dirContainsReadable d = false)
      ∧ ∀ t, check_dir true true maxDepth depth d = some t →
          treeNonEmpty t = true :=
  ⟨check_dir_none_iff maxDepth depth d h,
    fun t => check_dir_some_nonempty true true maxDepth depth d t⟩

/-- Witness for the amended C5: with `MAX_DEPTH = 2` the same two-level tree
is within the depth budget and the scan finds the image. -/
theorem c5_check_dir_content_iff_witness :
    1 + dirNesting
        (FSDir.cons (FSEntry.dir "a" (FSDir.cons
          (FSEntry.dir "b" (FSDir.cons (FSEntry.file "img" true) FSDir.nil))
          FSDir.nil)) FSDir.nil) ≤ 2 + 1
      ∧ (check_dir true true 2 1
          (FSDir.cons (FSEntry.dir "a" (FSDir.cons
            (FSEntry.dir "b" (FSDir.cons (FSEntry.file "img" true) FSDir.nil))
            FSDir.nil)) FSDir.nil) = none
        ↔ dirContainsReadable
            (FSDir.cons (FSEntry.dir "a" (FSDir.cons
              (FSEntry.dir "b" (FSDir.cons (FSEntry.file "img" true) FSDir.nil))
              FSDir.nil)) FSDir.nil) = false) := by
  refine ⟨by decide, ?_⟩
  exact (c5_check_dir_content_iff 2 1
    (FSDir.cons (FSEntry.dir "a" (FSDir.cons
      (FSEntry.dir "b" (FSDir.cons (FSEntry.file "img" true) FSDir.nil))
      FSDir.nil)) FSDir.nil) (by decide)).1

/-! ### Cycle detection in the symlinked directory walk (`check_dir`,
cli.py lines 191-223) -/

/-- Component-level path prefix: `pathPrefix p q` holds when the absolute
path `p` is an ancestor of (or equal to) `q` — the component-list counterpart
of the `str.startswith` tests on resolved absolute paths. -/
def pathPrefix : List String → List String → Bool
  | [], _ => true
  | _ :: _, [] => false
  | a :: as, b :: bs => if a = b then pathPrefix as bs else false

/-- Every path is a prefix of itself. -/
theorem pathPrefix_refl : ∀ p : List String, pathPrefix p p = true
  | [] => rfl
  | a :: as => by rw [pathPrefix, if_pos rfl, pathPrefix_refl as]

/-- Every path is a prefix of its extensions. -/
theorem pathPrefix_append : ∀ p q : List String, pathPrefix p (p ++ q) = true
  | [], q => rfl
  | a :: as, q => by rw [List.cons_append, pathPrefix, if_pos rfl,
      pathPrefix_append as q]

/-- Path prefixing is transitive. -/
theorem pathPrefix_trans : ∀ {a b c : List String},
    pathPrefix a b = true → pathPrefix b c = true → pathPrefix a c = true
  | [], _, _, _, _ => rfl
  | a :: as, [], c, hab, hbc => by
      rw [pathPrefix] at hab
      exact Bool.noConfusion hab
  | a :: as, b :: bs, [], hab, hbc => by
      rw [pathPrefix] at hbc
      exact Bool.noConfusion hbc
  | a :: as, b :: bs, c :: cs, hab, hbc => by
      rw [pathPrefix] at hab hbc ⊢
      by_cases h1 : a = b
      · rw [if_pos h1] at hab
        by_cases h2 : b = c
        · rw [if_pos h2] at hbc
          rw [if_pos (h1.trans h2)]
          exact pathPrefix_trans hab hbc
        · rw [if_neg h2] at hbc
          exact Bool.noConfusion hbc
      · rw [if_neg h1] at hab
        exact Bool.noConfusion hab

/-- A prefix is no longer than the path it prefixes. -/
theorem pathPrefix_length : ∀ {a b : List String},
    pathPrefix a b = true → a.length ≤ b.length
  | [], b, _ => Nat.zero_le _
  | a :: as, [], h => by rw [pathPrefix] at h; exact Bool.noConfusion h
  | a :: as, b :: bs, h => by
      rw [pathPrefix] at h
      by_cases h1 : a = b
      · rw [if_pos h1] at h
        exact Nat.succ_le_succ (pathPrefix_length h)
      · rw [if_neg h1] at h
        exact Bool.noConfusion h

/-- A prefix of `b ++ [x]` is a prefix of `b` or the whole of `b ++ [x]`. -/
theorem pathPrefix_snoc : ∀ {a b : List String} {x : String},
    pathPrefix a (b ++ [x]) = true → pathPrefix a b = true ∨ a = b ++ [x]
  | [], b, x, _ => Or.inl rfl
  | a :: as, [], x, h => by
      rw [List.nil_append] at h
      rw [pathPrefix] at h
      by_cases h1 : a = x
      · rw [if_pos h1] at h
        cases as with
        | nil => exact Or.inr (by rw [h1]; rfl)
        | cons y ys => rw [pathPrefix] at h; exact Bool.noConfusion h
      · rw [if_neg h1] at h
        exact Bool.noConfusion h
  | a :: as, b :: bs, x, h => by
      rw [List.cons_append, pathPrefix] at h
      by_cases h1 : a = b
      · rw [if_pos h1] at h
        rcases pathPrefix_snoc h with h2 | h2
        · exact Or.inl (by rw [pathPrefix, if_pos h1]; exact h2)
        · exact Or.inr (by rw [List.cons_append, h1, h2])
      · rw [if_neg h1] at h
        exact Bool.noConfusion h

/-- A directory entry relevant to the symlinked walk: a plain sub-directory
or a symlinked directory together with its resolved target path
(`realpath(entry)`). -/
inductive WalkEntry where
  | dir (name : String)
  | symlink (name : String) (target : List String)
deriving DecidableEq, Repr

/-- A filesystem graph: the listing of each (resolved) directory path.
Cyclic symlink structures are expressible since targets are arbitrary
paths. -/
def walkEntries : List (List String × List WalkEntry) → List String →
    List WalkEntry
  | [], _ => []
  | (q, es) :: rest, p => if q = p then es else walkEntries rest p

/-- One frame of the recursive walk of `check_dir`: the current working
directory (resolved), the accumulated symlink chain `_links` as
`(link path, resolved target)` pairs, the resolved directories already
visited along the current chain, and the current `_depth`. -/
structure WalkFrame where
  cwd : List String
  links : List (List String × List String)
  visited : List (List String)
  depth : Nat
deriving DecidableEq, Repr

/-- The cycle check of `check_dir` (cli.py lines 203-205): a symlinked
directory is pruned when its resolved path is a prefix of the current
working directory (`os.getcwd().startswith(path)`) or a prefix of some link
path of the accumulated chain
(`any(link[0].startswith(path) for link in _links)`). -/
def prunes (f : WalkFrame) (target : List String) : Bool :=
  pathPrefix target f.cwd || f.links.any (fun l => pathPrefix target l.1)

/-- The frames reached by the recursive walk: a root enters at `_depth = 1`
(sources are enqueued at depth 0 and `check_dir` increments on entry); a
plain sub-directory is entered by extending the working directory; a
symlinked directory is entered only below the depth limit and when the cycle
check does not prune it, recording the traversed link in the chain. -/
inductive Reach (fs : List (List String × List WalkEntry)) (maxDepth : Nat) :
    WalkFrame → Prop where
  | init (root : List String) : Reach fs maxDepth ⟨root, [], [], 1⟩
  | stepDir {f : WalkFrame} (name : String) :
      Reach fs maxDepth f →
      WalkEntry.dir name ∈ walkEntries fs f.cwd →
      f.depth ≤ maxDepth →
      Reach fs maxDepth
        ⟨f.cwd ++ [name], f.links, f.visited ++ [f.cwd], f.depth + 1⟩
  | stepLink {f : WalkFrame} (name : String) (target : List String) :
      Reach fs maxDepth f →
      WalkEntry.symlink name target ∈ walkEntries fs f.cwd →
      f.depth ≤ maxDepth →
      prunes f target = false →
      Reach fs maxDepth
        ⟨target, f.links ++ [(f.cwd ++ [name], target)],
          f.visited ++ [f.cwd], f.depth + 1⟩

/-- Well-formedness of the filesystem graph: no symlink resolves to its own
link path (`realpath` fails with `ELOOP` on such links, and the resulting
`OSError` makes `check_dir` skip the entry). -/
def wellFormedLinks (fs : List (List String × List WalkEntry)) : Bool :=
  fs.all (fun pe => pe.2.all (fun e =>
    match e with
    | WalkEntry.dir _ => true
    | WalkEntry.symlink name target => decide (target ≠ pe.1 ++ [name])))

/-- In a well-formed graph, no symlink of directory `p` resolves to its own
link path `p ++ [name]`. -/
theorem wellFormedLinks_spec {fs : List (List String × List WalkEntry)}
    (hwf : wellFormedLinks fs = true) :
    ∀ (p : List String) (name : String) (target : List String),
      WalkEntry.symlink name target ∈ walkEntries fs p →
      target ≠ p ++ [name] := by
  revert hwf
  induction fs with
  | nil =>
    intro hwf p name target hmem
    simp [walkEntries] at hmem
  | cons pe rest ih =>
    intro hwf
    rw [wellFormedLinks, List.all_cons, Bool.and_eq_true] at hwf
    obtain ⟨h1, hrest⟩ := hwf
    intro p name target hmem
    unfold walkEntries at hmem
    split at hmem
    · rename_i hq
      have h2 := List.all_eq_true.mp h1 _ hmem
      rw [← hq]
      simpa using h2
    · exact ih hrest p name target hmem

/-- Invariants of every reachable frame of the walk: (i) every visited
directory of the current chain is an ancestor of the working directory or of
some link path of the chain; (ii) the working directory is an ancestor of no
link path; (iii) every resolved target in the chain is an ancestor of the
working directory or of some link path; (iv) `_depth` never exceeds
`MAX_DEPTH + 1`; (v) the number of visited directories is `_depth - 1`;
(vi) the working directory was never visited before in this chain. -/
theorem reach_inv {fs : List (List String × List WalkEntry)} {maxDepth : Nat}
    {f : WalkFrame} (hwf : wellFormedLinks fs = true)
    (hr : Reach fs maxDepth f) :
    (∀ v ∈ f.visited, pathPrefix v f.cwd = true
        ∨ ∃ l ∈ f.links, pathPrefix v l.1 = true)
      ∧ (∀ l ∈ f.links, pathPrefix f.cwd l.1 = false)
      ∧ (∀ l ∈ f.links, pathPrefix l.2 f.cwd = true
          ∨ ∃ l₂ ∈ f.links, pathPrefix l.2 l₂.1 = true)
      ∧ f.depth ≤ maxDepth + 1
      ∧ f.visited.length + 1 = f.depth
      ∧ f.cwd ∉ f.visited := by
  induction hr with
  | init root =>
    exact ⟨by simp, by simp, by simp, by dsimp only; omega, by simp, by simp⟩
  | stepDir name hr hmem hdep ih =>
    obtain ⟨hJ, hK, hJ2, hD, hL, hNV⟩ := ih
    rename_i f
    refine ⟨?_, ?_, ?_, ?_, ?_, ?_⟩ <;> dsimp only
    · intro v hv
      rcases List.mem_append.mp hv with hv | hv
      · rcases hJ v hv with hpre | ⟨l, hl, hp⟩
        · exact Or.inl (pathPrefix_trans hpre (pathPrefix_append f.cwd [name]))
        · exact Or.inr ⟨l, hl, hp⟩
      · rw [List.mem_singleton.mp hv]
        exact Or.inl (pathPrefix_append f.cwd [name])
    · intro l hl
      cases hb : pathPrefix (f.cwd ++ [name]) l.1 with
      | false => rfl
      | true =>
        have h2 : pathPrefix f.cwd l.1 = true :=
          pathPrefix_trans (pathPrefix_append f.cwd [name]) hb
        rw [hK l hl] at h2
        exact Bool.noConfusion h2
    · intro l hl
      rcases hJ2 l hl with hpre | ⟨l₂, hl₂, hp⟩
      · exact Or.inl (pathPrefix_trans hpre (pathPrefix_append f.cwd [name]))
      · exact Or.inr ⟨l₂, hl₂, hp⟩
    · omega
    · rw [List.length_append]
      simp only [List.length_singleton]
      omega
    · intro hmem2
      rcases List.mem_append.mp hmem2 with hv | hv
      · rcases hJ _ hv with hpre | ⟨l, hl, hp⟩
        · have h2 := pathPrefix_length hpre
          rw [List.length_append] at h2
          simp at h2
        · have h2 : pathPrefix f.cwd l.1 = true :=
            pathPrefix_trans (pathPrefix_append f.cwd [name]) hp
          rw [hK l hl] at h2
          exact Bool.noConfusion h2
      · have h2 := congrArg List.length (List.mem_singleton.mp hv)
        rw [List.length_append] at h2
        simp at h2
  | stepLink name target hr hmem hdep hprune ih =>
    obtain ⟨hJ, hK, hJ2, hD, hL, hNV⟩ := ih
    rename_i f
    rw [prunes, Bool.or_eq_false_iff] at hprune
    obtain ⟨hp1, hpany⟩ := hprune
    have hp2 : ∀ l ∈ f.links, pathPrefix target l.1 = false := by
      intro l hl
      cases hb : pathPrefix target l.1 with
      | false => rfl
      | true =>
        have h2 : f.links.any (fun l => pathPrefix target l.1) = true :=
          List.any_eq_true.mpr ⟨l, hl, hb⟩
        rw [hpany] at h2
        exact Bool.noConfusion h2
    have hneq : target ≠ f.cwd ++ [name] :=
      wellFormedLinks_spec hwf f.cwd name target hmem
    have hln : (f.cwd ++ [name], target) ∈
        f.links ++ [(f.cwd ++ [name], target)] :=
      List.mem_append.mpr (Or.inr (List.mem_singleton.mpr rfl))
    refine ⟨?_, ?_, ?_, ?_, ?_, ?_⟩ <;> dsimp only
    · intro v hv
      rcases List.mem_append.mp hv with hv | hv
      · rcases hJ v hv with hpre | ⟨l, hl, hp⟩
        · exact Or.inr ⟨(f.cwd ++ [name], target), hln,
            pathPrefix_trans hpre (pathPrefix_append f.cwd [name])⟩
        · exact Or.inr ⟨l, List.mem_append.mpr (Or.inl hl), hp⟩
      · rw [List.mem_singleton.mp hv]
        exact Or.inr ⟨(f.cwd ++ [name], target), hln,
          pathPrefix_append f.cwd [name]⟩
    · intro l hl
      rcases List.mem_append.mp hl with hl | hl
      · exact hp2 l hl
      · rw [List.mem_singleton.mp hl]
        cases hb : pathPrefix target (f.cwd ++ [name]) with
        | false => rfl
        | true =>
          rcases pathPrefix_snoc hb with h2 | h2
          · rw [hp1] at h2
            exact Bool.noConfusion h2
          · exact absurd h2 hneq
    · intro l hl
      rcases List.mem_append.mp hl with hl | hl
      · rcases hJ2 l hl with hpre | ⟨l₂, hl₂, hp⟩
        · exact Or.inr ⟨(f.cwd ++ [name], target), hln,
            pathPrefix_trans hpre (pathPrefix_append f.cwd [name])⟩
        · exact Or.inr ⟨l₂, List.mem_append.mpr (Or.inl hl₂), hp⟩
      · rw [List.mem_singleton.mp hl]
        exact Or.inl (pathPrefix_refl target)
    · omega
    · rw [List.length_append]
      simp only [List.length_singleton]
      omega
    · intro hmem2
      rcases List.mem_append.mp hmem2 with hv | hv
      · rcases hJ _ hv with hpre | ⟨l, hl, hp⟩
        · rw [hp1] at hpre
          exact Bool.noConfusion hpre
        · rw [hp2 l hl] at hp
          exact Bool.noConfusion hp
      · have h2 := List.mem_singleton.mp hv
        rw [h2] at hp1
        rw [pathPrefix_refl] at hp1
        exact Bool.noConfusion hp1

/-- C6: in every frame the walk reaches on a well-formed filesystem graph
(even one with cyclic symlinks), a symlinked directory whose resolved path is
a prefix of the current working directory, or matches either component of an
entry already in the accumulated symlink chain, satisfies the cycle check and
is pruned — `Reach.stepLink` requires `prunes f target = false`, so the walk
never recurses into it; the number of directories descended into never
exceeds `MAX_DEPTH` (the walk therefore terminates: `_depth` strictly
increases along a chain and is bounded); and the same resolved path is never
visited twice within one chain. -/
theorem c6_walk_cycle_safety {fs : List (List String × List WalkEntry)}
    {maxDepth : Nat} {f : WalkFrame} (hwf : wellFormedLinks fs = true)
    (hr : Reach fs maxDepth f) :
    (∀ (name : String) (target : List String),
        WalkEntry.symlink name target ∈ walkEntries fs f.cwd →
        (pathPrefix target f.cwd = true
          ∨ ∃ l ∈ f.links, target = l.1 ∨ target = l.2) →
        prunes f target = true)
      ∧ f.visited.length ≤ maxDepth
      ∧ f.depth = f.visited.length + 1
      ∧ f.cwd ∉ f.visited := by
  obtain ⟨hJ, hK, hJ2, hD, hL, hNV⟩ := reach_inv hwf hr
  refine ⟨?_, by omega, by omega, hNV⟩
  intro name target hmem hcase
  rcases hcase with hpre | ⟨l, hl, hcase⟩
  · rw [prunes, hpre, Bool.true_or]
  · rcases hcase with h | h
    · rw [prunes]
      have hany : f.links.any (fun l₂ => pathPrefix target l₂.1) = true :=
        List.any_eq_true.mpr ⟨l, hl, by rw [h]; exact pathPrefix_refl l.1⟩
      rw [hany, Bool.or_true]
    · rcases hJ2 l hl with hpre2 | ⟨l₂, hl₂, hp⟩
      · rw [prunes, h, hpre2, Bool.true_or]
      · rw [prunes]
        have hany : f.links.any (fun l₃ => pathPrefix target l₃.1) = true :=
          List.any_eq_true.mpr ⟨l₂, hl₂, by rw [h]; exact hp⟩
        rw [hany, Bool.or_true]

/-- Witness for C6 on a concrete cyclic graph: `/a/L1` resolves to `/t` and
`/t/L2` resolves to `/t` itself; after traversing `L1` the walk has visited
one directory (within `MAX_DEPTH = 5`), its depth is one more than its visit
count, and its working directory was never visited before. -/
theorem c6_walk_cycle_safety_witness :
    wellFormedLinks
        [((["a"] : List String), [WalkEntry.symlink "L1" ["t"]]),
          (["t"], [WalkEntry.symlink "L2" ["t"]])] = true
      ∧ (WalkFrame.mk ["t"] [(["a", "L1"], ["t"])] [["a"]] 2).visited.length ≤ 5
      ∧ (WalkFrame.mk ["t"] [(["a", "L1"], ["t"])] [["a"]] 2).depth =
          (WalkFrame.mk ["t"] [(["a", "L1"], ["t"])] [["a"]] 2).visited.length + 1
      ∧ (WalkFrame.mk ["t"] [(["a", "L1"], ["t"])] [["a"]] 2).cwd ∉
          (WalkFrame.mk ["t"] [(["a", "L1"], ["t"])] [["a"]] 2).visited := by
  refine ⟨by decide, ?_⟩
  exact (@c6_walk_cycle_safety
    [((["a"] : List String), [WalkEntry.symlink "L1" ["t"]]),
      (["t"], [WalkEntry.symlink "L2" ["t"]])] 5
    (WalkFrame.mk ["t"] [(["a", "L1"], ["t"])] [["a"]] 2)
    (by decide)
    (Reach.stepLink "L1" ["t"] (Reach.init ["a"]) (by decide) (by decide)
      (by decide))).2
